import Mathlib

/-!
# Verification of the Per-User Conversation & Memory Runtime

Shallow embedding, in Lean 4, of the core data operations of the
Agent-Luotianyi server (conversation manager, database service facade,
memory search, response streamer, sentence splitter, image normalizer),
together with proofs and refutations of the specified contracts.

Python strings are modelled as `List Char` or `String` (Python `len`
counts code points, as does `List.length`); machine integers are
`Nat`/`Int`; similarity scores are exact rationals; fallible or stateful
code is modelled by explicit state passing.
-/

set_option maxRecDepth 8000
set_option linter.unusedVariables false

namespace LuoTianyi

/-! ## Python string primitives

Python strings are modelled as `List Char`; `str.strip()` and the regex
class `\\s` use the whitespace test below (the whitespace characters that
occur in this code base's data). -/

/-- Python whitespace test (`str.isspace` on one character). -/
def pyIsSpace (c : Char) : Bool :=
  c = ' ' ∨ c = '\t' ∨ c = '\n' ∨ c = '\r' ∨ c = '\x0b' ∨ c = '\x0c' ∨ c = '　'

/-- Python `str.strip()`: remove leading and trailing whitespace. -/
def pyStrip (s : List Char) : List Char :=
  ((s.dropWhile pyIsSpace).reverse.dropWhile pyIsSpace).reverse

theorem length_dropWhile_le (p : Char → Bool) (l : List Char) :
    (l.dropWhile p).length ≤ l.length :=
  List.Sublist.length_le (List.dropWhile_sublist _)

/-! ## Data model

`ConvJson` is the JSON object stored for one conversation entry inside the
cached `user_context:{user}` payload (see `prefill_buffer` and
`add_conversations` in `database_service.py`). `ContextPayload` is the
whole cached payload `{summary, conversations}`. `UserRow` carries the
`users`-table columns that the summarizer touches. -/

structure ConvJson where
  timestamp : String
  source : String
  content : String
  type : String
deriving DecidableEq, Repr

structure ContextPayload where
  summary : String
  conversations : List ConvJson
deriving DecidableEq, Repr

structure UserRow where
  context_summary : String
  context_memory_count : Nat
  nickname : String
deriving DecidableEq, Repr

/-- `MemoryUpdateCommand` (types/memory_type): `{uuid, content, type}`,
where `uuid` may be `None`. -/
structure MemoryUpdateCmd where
  uuid : Option String
  content : String
  type : String
deriving DecidableEq, Repr

namespace DatabaseService

/-! ## `database_service.update_context_summary`

The SQL row update (`user.context_summary`/`user.context_memory_count`)
together with the Redis update of `user_context:{user}`: if the key is
present, the summary is replaced and the cached conversation list is
trimmed to its last `new_context_memory_count` items (`convs[-n:]` for
`n > 0`, `[]` for `n = 0`); if the key is absent nothing is written.
The optimistic-lock loop is modelled in its uncontended run (no concurrent
writer, so the first `watch`/`setex` attempt commits). -/

def update_context_summary (user : UserRow) (cache : Option ContextPayload)
    (new_summary : String) (new_context_memory_count : Nat) :
    UserRow × Option ContextPayload :=
  let user' : UserRow :=
    { user with
      context_summary := new_summary
      context_memory_count := new_context_memory_count }
  match cache with
  | none => (user', none)
  | some data =>
      let convs := data.conversations
      let convs' :=
        if new_context_memory_count > 0 then
          convs.drop (convs.length - new_context_memory_count)
        else []
      (user', some { summary := new_summary, conversations := convs' })

end DatabaseService

namespace ConversationManager

/-- `self.not_zip_conversation_count = config.get("not_zip_conversation_count", 20)` -/
def not_zip_conversation_count (cfg : Option Nat) : Nat := cfg.getD 20

/-- `self.raw_conversation_context_limit = config.get("raw_conversation_context_limit", 100)` -/
def raw_conversation_context_limit (cfg : Option Nat) : Nat := cfg.getD 100

/-- `ConversationManager._update_context`, step 3: after the LLM produced
`new_summary`, the manager calls `update_context_summary` with
`new_count = self.not_zip_conversation_count`. -/
def update_context_commit (cfg : Option Nat) (user : UserRow)
    (cache : Option ContextPayload) (new_summary : String) :
    UserRow × Option ContextPayload :=
  DatabaseService.update_context_summary user cache new_summary
    (not_zip_conversation_count cfg)

/-- `ConversationManager.check_and_update_context`: reads the current
unsummarized count and, when it exceeds `raw_conversation_context_limit`,
unconditionally spawns a summarization task via `asyncio.create_task`.
The spawn is modelled by incrementing the number `in_flight` of
summarization tasks currently running for this user; the function
consults no per-user flag and no in-flight state. -/
def check_and_update_context (limit current_count in_flight : Nat) : Nat :=
  if current_count > limit then in_flight + 1 else in_flight

end ConversationManager

/-! ## C1 / C2 theorems -/

/-- C1: after a summarization completes for a user (the uncontended run of
`_update_context` step 3, with the cached context present and holding at
least `not-zip-count` entries, as it does at trigger time where the count
exceeds `raw-context-limit = 100`), the user's working-window count equals
the configured not-zip-count (default 20) and the cached
`user_context:{user}` payload holds exactly that many conversation
entries, namely the newest ones (a suffix of the chronological list). -/
theorem summarization_restores_window (cfg : Option Nat) (user : UserRow)
    (payload : ContextPayload) (new_summary : String)
    (h : ConversationManager.not_zip_conversation_count cfg ≤ payload.conversations.length)
    (h0 : 0 < ConversationManager.not_zip_conversation_count cfg) :
    (ConversationManager.update_context_commit cfg user (some payload) new_summary).1.context_memory_count
        = ConversationManager.not_zip_conversation_count cfg ∧
    ∃ convs' : List ConvJson,
      (ConversationManager.update_context_commit cfg user (some payload) new_summary).2
          = some { summary := new_summary, conversations := convs' } ∧
      convs'.length = ConversationManager.not_zip_conversation_count cfg ∧
      convs' <:+ payload.conversations := by
  set n := ConversationManager.not_zip_conversation_count cfg with hn
  refine ⟨rfl, payload.conversations.drop (payload.conversations.length - n), ?_, ?_, ?_⟩
  · simp only [ConversationManager.update_context_commit,
      DatabaseService.update_context_summary, if_pos h0]
  · rw [List.length_drop]
    omega
  · exact List.drop_suffix _ _

/-- Witness for C1 at a concrete input: config absent (so not-zip-count
defaults to 20) and a cached payload with 21 entries. -/
theorem summarization_restores_window_witness :
    (ConversationManager.update_context_commit none
        { context_summary := "old", context_memory_count := 101, nickname := "你" }
        (some { summary := "s",
                conversations := List.replicate 21
                  { timestamp := "t", source := "user", content := "c", type := "text" } })
        "new").1.context_memory_count
      = ConversationManager.not_zip_conversation_count none := by
  exact (summarization_restores_window none _ _ "new" (by decide) (by decide)).1

/-- C2 counterexample: the claim states that a summarization trigger
arriving while a task is already in flight for the user is dropped, i.e.
`check_and_update_context` leaves `in_flight` unchanged whenever
`in_flight ≥ 1`. With the default limit 100, a trigger at count 101 and
one task already running yields two in-flight tasks, refuting the claim:
the code consults no per-user flag. -/
theorem summarizer_no_flag_counterexample :
    ConversationManager.check_and_update_context 100 101 1 = 2 ∧ (2 : Nat) ≠ 1 := by
  exact ⟨rfl, by decide⟩

/-- C2 amended: every trigger whose unsummarized count exceeds the limit
spawns a new summarization task, regardless of how many are already in
flight; there is no per-user flag, so concurrent summarization tasks for
one user are possible. -/
theorem summarizer_trigger_always_spawns (limit current_count in_flight : Nat)
    (h : current_count > limit) :
    ConversationManager.check_and_update_context limit current_count in_flight
      = in_flight + 1 := by
  unfold ConversationManager.check_and_update_context
  simp [h]

/-- Witness for the amended C2 at a concrete input. -/
theorem summarizer_trigger_always_spawns_witness :
    ConversationManager.check_and_update_context 100 101 0 = 1 := by
  exact summarizer_trigger_always_spawns 100 101 0 (by decide)

namespace DatabaseService

/-! ## Cache-aside readers and the knowledge buffer

Each per-user Redis key is modelled by an `Option` value (`none` = key
absent or expired).  Every reader returns its value together with a flag
recording whether it invoked `prefill_buffer` (the fallback to the durable
log).  The durable side is the per-user slice of the corresponding table. -/

/-- `prefill_buffer`, context part: `{summary, conversations}` where the
conversations are the last `context_memory_count` rows in chronological
order (query ordered descending, limited, then reversed). -/
def prefill_context (user : UserRow) (db_convs : List ConvJson) : ContextPayload :=
  { summary := user.context_summary
    conversations := db_convs.drop (db_convs.length - user.context_memory_count) }

/-- `get_context_from_buffer`: cache hit returns the payload; a miss runs
`prefill_buffer` and re-reads. -/
def get_context_from_buffer (user : UserRow) (db_convs : List ConvJson)
    (cache : Option ContextPayload) : ContextPayload × Bool :=
  match cache with
  | some data => (data, false)
  | none => (prefill_context user db_convs, true)

/-- Insertion sort of `knowledge_buffers` rows by their `uuid` column
(`order_by(KnowledgeBuffer.uuid.asc())` in `prefill_buffer`). -/
def insertRowByUuid (r : String × String) :
    List (String × String) → List (String × String)
  | [] => [r]
  | x :: xs => if r.1 ≤ x.1 then r :: x :: xs else x :: insertRowByUuid r xs

def sortRowsByUuid : List (String × String) → List (String × String)
  | [] => []
  | x :: xs => insertRowByUuid x (sortRowsByUuid xs)

/-- `prefill_buffer`, knowledge part: contents of the user's
`knowledge_buffers` rows ordered by `uuid` ascending. -/
def prefill_knowledge (rows : List (String × String)) : List String :=
  (sortRowsByUuid rows).map Prod.snd

/-- Per-user knowledge-buffer state: the `knowledge_buffers` rows
`(uuid, content)` of this user in C1 and the `user_knowledge:{user}`
cache value in C2. -/
structure KnowledgeState where
  rows : List (String × String)
  cache : Option (List String)
deriving DecidableEq, Repr

/-- `write_knowledge_buffers`: delete every old row of the user, insert
the new contents in insertion order (with fresh row uuids), commit, then
overwrite `user_knowledge:{user}` with the JSON list of the new contents
(plain `setex`, no compare-and-set). -/
def write_knowledge_buffers (st : KnowledgeState) (new_uuids : List String)
    (knowledge_contents : List String) : KnowledgeState :=
  { rows := new_uuids.zip knowledge_contents
    cache := some knowledge_contents }

/-- `get_knowledge_from_buffer`: cache hit returns the cached list; a miss
runs `prefill_buffer` and re-reads. -/
def get_knowledge_from_buffer (st : KnowledgeState) : List String × Bool :=
  match st.cache with
  | some l => (l, false)
  | none => (prefill_knowledge st.rows, true)

/-- `get_user_nickname`: cache hit returns the nickname; a miss runs
`prefill_buffer` and re-reads. -/
def get_user_nickname (user : UserRow) (cache : Option String) :
    Option String × Bool :=
  match cache with
  | some n => (some n, false)
  | none => (some user.nickname, true)

/-- `get_recent_memory_update_from_buffer`: cache hit parses the cached
list; a miss runs `prefill_buffer` (last 10 update records, chronological)
and re-reads. -/
def get_recent_memory_update_from_buffer (db_updates : List MemoryUpdateCmd)
    (cache : Option (List MemoryUpdateCmd)) : List MemoryUpdateCmd × Bool :=
  match cache with
  | some l => (l, false)
  | none => (db_updates.drop (db_updates.length - 10), true)

/-- `get_used_memory_uuid`: reads `user_used_uuid:{user}` and returns the
parsed list on a hit, the empty list on a miss — with no call to
`prefill_buffer` and no durable fallback of any kind. -/
def get_used_memory_uuid (cache : Option (List String)) : List String × Bool :=
  match cache with
  | some l => (l, false)
  | none => ([], false)

end DatabaseService

/-! ## C4 / C10 theorems -/

/-- C4: for every user and every list `L` of strings,
`ReplaceKnowledgeBuffer(L)` (`write_knowledge_buffers`) followed by
`ReadKnowledgeBuffer` (`get_knowledge_from_buffer`) returns exactly `L`:
the same strings in the insertion order in which they were written. -/
theorem knowledge_buffer_round_trip (st : DatabaseService.KnowledgeState)
    (new_uuids : List String) (L : List String) :
    (DatabaseService.get_knowledge_from_buffer
        (DatabaseService.write_knowledge_buffers st new_uuids L)).1 = L := by
  rfl

/-- Witness for C4 at a concrete state and list. -/
theorem knowledge_buffer_round_trip_witness :
    (DatabaseService.get_knowledge_from_buffer
        (DatabaseService.write_knowledge_buffers
          { rows := [("u0", "old")], cache := some ["stale"] }
          ["id1", "id2"] ["知识一", "知识二"])).1 = ["知识一", "知识二"] :=
  knowledge_buffer_round_trip
    { rows := [("u0", "old")], cache := some ["stale"] }
    ["id1", "id2"] ["知识一", "知识二"]

/-- C10: when `user_used_uuid:{user}` is absent or expired, reading the
used-memory-id set returns the empty list and performs no prefill, while
the context, knowledge, nickname and recent-updates readers all fall back
to `prefill_buffer` on a miss; so the used-id set lives only in the cache
and is lost on expiry. -/
theorem used_uuid_reader_never_prefills :
    DatabaseService.get_used_memory_uuid none = ([], false) ∧
    (∀ (user : UserRow) (db_convs : List ConvJson),
      (DatabaseService.get_context_from_buffer user db_convs none).2 = true) ∧
    (∀ st : DatabaseService.KnowledgeState, st.cache = none →
      (DatabaseService.get_knowledge_from_buffer st).2 = true) ∧
    (∀ user : UserRow, (DatabaseService.get_user_nickname user none).2 = true) ∧
    (∀ db_updates : List MemoryUpdateCmd,
      (DatabaseService.get_recent_memory_update_from_buffer db_updates none).2 = true) := by
  refine ⟨rfl, fun _ _ => rfl, fun st h => ?_, fun _ => rfl, fun _ => rfl⟩
  simp [DatabaseService.get_knowledge_from_buffer, h]

/-- Witness for C10: the knowledge reader prefilled at a concrete empty
state while the used-id reader returned the empty list without prefill. -/
theorem used_uuid_reader_never_prefills_witness :
    DatabaseService.get_used_memory_uuid none = ([], false) ∧
    (DatabaseService.get_knowledge_from_buffer { rows := [], cache := none }).2 = true :=
  ⟨used_uuid_reader_never_prefills.1,
   used_uuid_reader_never_prefills.2.2.1 { rows := [], cache := none } rfl⟩

namespace Agent

/-! ## `LuoTianyiAgent.handle_history_request`

The durable log of one user is a chronological list of conversation rows
(`order_by(timestamp.asc())`); `end_index` and `count` come from the
client request as signed integers. -/

/-- A `ConversationItem` as read back from the `conversations` table; for
image entries `data` carries the client-supplied path
(`image_client_path`), for others it is absent. -/
structure HistoryItem where
  uuid : String
  timestamp : String
  source : String
  type : String
  content : String
  data : Option String
deriving DecidableEq, Repr

/-- `get_history_from_db`: `limit = end - start`; non-positive limits
return `[]`; otherwise the rows `offset start limit (end - start)` of the
chronological list. -/
def get_history_from_db (convs : List HistoryItem) (start stop : Int) :
    List HistoryItem :=
  let lim := stop - start
  if lim ≤ 0 then []
  else (convs.drop start.toNat).take lim.toNat

/-- One entry of the history response. -/
structure HistoryOut where
  uuid : String
  content : String
  source : String
  timestamp : String
  type : String
deriving DecidableEq, Repr

/-- The per-item formatting in `handle_history_request`: image entries
with aux data report the client path as their content. -/
def format_history_item (item : HistoryItem) : HistoryOut :=
  { uuid := item.uuid
    content :=
      if item.type = "image" ∧ item.data.isSome then item.data.getD ""
      else item.content
    source := item.source
    timestamp := item.timestamp
    type := item.type }

/-- `handle_history_request`: clamp `end_index` (`-1` or beyond the total
count becomes the total), compute `start = max 0 (end - count)`, return
`{history: [], start_index: 0}` for an empty range and otherwise the
formatted rows of `[start, end)` together with `start`. -/
def handle_history_request (convs : List HistoryItem) (count end_index : Int) :
    List HistoryOut × Int :=
  let total : Int := convs.length
  let e := if end_index = -1 ∨ end_index > total then total else end_index
  let s := max 0 (e - count)
  if s ≥ e then ([], 0)
  else ((get_history_from_db convs s e).map format_history_item, s)

/-- The end index of the claim's formula: `-1` or a value above the total
is clamped to the total. -/
def spec_history_end (total end_index : Int) : Int :=
  if end_index = -1 ∨ end_index > total then total else end_index

/-- The start index of the claim's formula: `max 0 (end - count)`. -/
def spec_history_start (total count end_index : Int) : Int :=
  max 0 (spec_history_end total end_index - count)

end Agent

/-! ## C3 theorems -/

/-- C3 counterexample: a request with `count = 0` against a single-entry
log (`end_index = -1`, so `end` is clamped to the total `1`).  The claim's
formula prescribes `start_index = max(0, end - count) = 1`, but the code's
empty-range early return yields `start_index = 0`. -/
theorem history_request_counterexample :
    (Agent.handle_history_request
        [{ uuid := "u1", timestamp := "2024-01-01 00:00:00", source := "user",
           type := "text", content := "hi", data := none }] 0 (-1)).2
      ≠ Agent.spec_history_start 1 0 (-1) := by
  decide

/-- C3 amended: for every history request with `count ≥ 1`, `end_index`
of `-1` or above the total is clamped to the total, and the response is
exactly the formatted slice `[max(0, end - count), end)` of the user's
chronological entries together with `start_index = max(0, end - count)`
(so with fewer than `count` entries everything is returned and
`start_index = 0`).  Only `count ≤ 0` requests deviate from the formula. -/
theorem history_request_spec (convs : List Agent.HistoryItem)
    (count end_index : Int) (hc : 1 ≤ count) :
    Agent.handle_history_request convs count end_index
      = (((convs.drop (Agent.spec_history_start convs.length count end_index).toNat).take
            (Agent.spec_history_end convs.length end_index
              - Agent.spec_history_start convs.length count end_index).toNat).map
          Agent.format_history_item,
         Agent.spec_history_start convs.length count end_index) := by
  unfold Agent.handle_history_request Agent.spec_history_start Agent.spec_history_end
  set total : Int := (convs.length : Int) with htotal
  set e : Int := if end_index = -1 ∨ end_index > total then total else end_index with he
  set s : Int := max 0 (e - count) with hs
  by_cases hse : s ≥ e
  · rw [if_pos hse]
    have hs0 : s = 0 := by
      rcases max_choice 0 (e - count) with h | h
      · omega
      · omega
    have htake : (e - s).toNat = 0 := by omega
    simp [htake, hs0]
    exact Or.inl (by omega)
  · rw [if_neg hse]
    unfold Agent.get_history_from_db
    rw [if_neg (by omega : ¬ e - s ≤ 0)]

/-- Witness for the amended C3: three entries, `count = 2`,
`end_index = -1`; the response is the last two entries with
`start_index = 1`. -/
theorem history_request_spec_witness :
    Agent.handle_history_request
        [{ uuid := "u1", timestamp := "t1", source := "user",
           type := "text", content := "a", data := none },
         { uuid := "u2", timestamp := "t2", source := "agent",
           type := "text", content := "b", data := none },
         { uuid := "u3", timestamp := "t3", source := "user",
           type := "text", content := "c", data := none }] 2 (-1)
      = ([{ uuid := "u2", content := "b", source := "agent",
            timestamp := "t2", type := "text" },
          { uuid := "u3", content := "c", source := "user",
            timestamp := "t3", type := "text" }], 1) := by
  rw [history_request_spec _ 2 (-1) (by decide)]
  decide

namespace MemorySearch

/-! ## `MemorySearcher._vector_search`

Vector-store hits are `(document, similarity score)` pairs; scores are
exact rationals; the per-turn used-id set is threaded through the loop
(`used_uuid` is shared by all tool invocations of one `search` call). -/

/-- A vector-store document: id, `timestamp` metadata and content. -/
structure Doc where
  id : String
  timestamp : String
  content : String
deriving DecidableEq, Repr

/-- The loop of `_vector_search`: stop at the first hit whose score is
below `0.50` (`break`), skip documents whose id is already in `used_uuid`,
and otherwise add the id to `used_uuid` and accept the hit.  Returns the
accepted hits and the final used set. -/
def vector_search_accept :
    List (Doc × ℚ) → List String → List (Doc × ℚ) × List String
  | [], used => ([], used)
  | (doc, score) :: rest, used =>
    if score < 1/2 then ([], used)
    else if doc.id ∈ used then vector_search_accept rest used
    else
      let r := vector_search_accept rest (doc.id :: used)
      ((doc, score) :: r.1, r.2)

/-- `_vector_search`: the accepted hits are rendered as
`"在{timestamp}, {content}"` strings. -/
def vector_search (results : List (Doc × ℚ)) (used : List String) :
    List String × List String :=
  let r := vector_search_accept results used
  (r.1.map (fun p => "在" ++ p.1.timestamp ++ ", " ++ p.1.content), r.2)

@[simp] theorem vector_search_accept_nil (used : List String) :
    vector_search_accept [] used = ([], used) := rfl

theorem vector_search_accept_cons (doc : Doc) (score : ℚ)
    (rest : List (Doc × ℚ)) (used : List String) :
    vector_search_accept ((doc, score) :: rest) used
      = if score < 1/2 then ([], used)
        else if doc.id ∈ used then vector_search_accept rest used
        else ((doc, score) :: (vector_search_accept rest (doc.id :: used)).1,
              (vector_search_accept rest (doc.id :: used)).2) := rfl

theorem vector_search_accept_used_mono (results : List (Doc × ℚ))
    (used : List String) :
    ∀ x ∈ used, x ∈ (vector_search_accept results used).2 := by
  induction results generalizing used with
  | nil => intro x hx; simpa using hx
  | cons p rest ih =>
      intro x hx
      obtain ⟨doc, score⟩ := p
      rw [vector_search_accept_cons]
      by_cases h1 : score < 1/2
      · rw [if_pos h1]; exact hx
      · rw [if_neg h1]
        by_cases h2 : doc.id ∈ used
        · rw [if_pos h2]; exact ih used x hx
        · rw [if_neg h2]
          exact ih (doc.id :: used) x (List.mem_cons_of_mem _ hx)

theorem vector_search_accept_not_used (results : List (Doc × ℚ))
    (used : List String) :
    ∀ p ∈ (vector_search_accept results used).1, p.1.id ∉ used := by
  induction results generalizing used with
  | nil => intro p hp; simp at hp
  | cons q rest ih =>
      intro p hp
      obtain ⟨doc, score⟩ := q
      rw [vector_search_accept_cons] at hp
      by_cases h1 : score < 1/2
      · rw [if_pos h1] at hp; simp at hp
      · rw [if_neg h1] at hp
        by_cases h2 : doc.id ∈ used
        · rw [if_pos h2] at hp; exact ih used p hp
        · rw [if_neg h2] at hp
          rcases List.mem_cons.mp hp with h | hp'
          · rw [h]; exact h2
          · intro hcontra
            exact (ih (doc.id :: used) p hp') (List.mem_cons_of_mem _ hcontra)

theorem vector_search_accept_recorded (results : List (Doc × ℚ))
    (used : List String) :
    ∀ p ∈ (vector_search_accept results used).1,
      p.1.id ∈ (vector_search_accept results used).2 := by
  induction results generalizing used with
  | nil => intro p hp; simp at hp
  | cons q rest ih =>
      intro p hp
      obtain ⟨doc, score⟩ := q
      rw [vector_search_accept_cons] at hp ⊢
      by_cases h1 : score < 1/2
      · rw [if_pos h1] at hp; simp at hp
      · rw [if_neg h1] at hp ⊢
        by_cases h2 : doc.id ∈ used
        · rw [if_pos h2] at hp ⊢; exact ih used p hp
        · rw [if_neg h2] at hp ⊢
          rcases List.mem_cons.mp hp with h | hp'
          · rw [h]
            exact vector_search_accept_used_mono rest (doc.id :: used) doc.id
              (List.mem_cons_self _ _)
          · exact ih (doc.id :: used) p hp'

theorem vector_search_accept_above_threshold (results : List (Doc × ℚ))
    (used : List String) :
    ∀ p ∈ (vector_search_accept results used).1, 1/2 ≤ p.2 := by
  induction results generalizing used with
  | nil => intro p hp; simp at hp
  | cons q rest ih =>
      intro p hp
      obtain ⟨doc, score⟩ := q
      rw [vector_search_accept_cons] at hp
      by_cases h1 : score < 1/2
      · rw [if_pos h1] at hp; simp at hp
      · rw [if_neg h1] at hp
        by_cases h2 : doc.id ∈ used
        · rw [if_pos h2] at hp; exact ih used p hp
        · rw [if_neg h2] at hp
          rcases List.mem_cons.mp hp with h | hp'
          · rw [h]; exact le_of_not_lt h1
          · exact ih (doc.id :: used) p hp'

end MemorySearch

/-! ## C5 theorem -/

/-- C5: within one turn, `memory_search` never returns a record whose id
is already in the used-id set: every accepted hit's id was absent from
`used_uuid` beforehand, every accepted hit's id is recorded in the
resulting used set, every accepted hit scored at least `0.50` (hits below
the threshold are dropped by the `break`), and the returned strings are
exactly the rendered accepted hits. -/
theorem memory_search_excludes_used (results : List (MemorySearch.Doc × ℚ))
    (used : List String) :
    (∀ p ∈ (MemorySearch.vector_search_accept results used).1, p.1.id ∉ used) ∧
    (∀ p ∈ (MemorySearch.vector_search_accept results used).1,
      p.1.id ∈ (MemorySearch.vector_search_accept results used).2) ∧
    (∀ p ∈ (MemorySearch.vector_search_accept results used).1, 1/2 ≤ p.2) ∧
    (MemorySearch.vector_search results used).1
      = ((MemorySearch.vector_search_accept results used).1.map
          (fun p => "在" ++ p.1.timestamp ++ ", " ++ p.1.content)) :=
  ⟨MemorySearch.vector_search_accept_not_used results used,
   MemorySearch.vector_search_accept_recorded results used,
   MemorySearch.vector_search_accept_above_threshold results used,
   rfl⟩

/-- Witness for C5: one above-threshold hit against the used set
`["id0"]` is accepted, and its id was not previously used. -/
theorem memory_search_excludes_used_witness :
    ({ id := "id1", timestamp := "t", content := "c" } : MemorySearch.Doc).id
      ∉ ["id0"] :=
  (memory_search_excludes_used
      [({ id := "id1", timestamp := "t", content := "c" }, (1 : ℚ))]
      ["id0"]).1
    ({ id := "id1", timestamp := "t", content := "c" }, (1 : ℚ))
    (by
      rw [MemorySearch.vector_search_accept_cons]
      rw [if_neg (by norm_num : ¬ (1 : ℚ) < 1/2)]
      rw [if_neg (by decide :
        ({ id := "id1", timestamp := "t", content := "c" } : MemorySearch.Doc).id
          ∉ ["id0"])]
      exact List.mem_cons_self _ _)

namespace ImageProcess

/-- `target_short_side = 27 * 28` in `get_image_bytes_and_base64`. -/
def target_short_side : Nat := 27 * 28

/-! The scaled-edge expression `int(long * (756 / short)) // 28 * 28` is
computed by Python in IEEE-754 binary64 arithmetic: `756 / short` rounds
to the nearest double (ties to even), the multiplication rounds again,
and `int` truncates.  The rounding is modelled exactly below with integer
arithmetic on (mantissa, exponent) pairs; the binary64 exponent range is
not modelled (overflow and subnormals are unreachable for image
dimensions).  The double rounding matters: for many near-square inputs
`long * (756 / short)` rounds one ulp below the exact value, e.g.
`int(1059 * (756 / 1059)) = 755`, not 756. -/

/-- Bit length of `n` (fuel-based; the fuel covers every `n < 2 ^ 4096`,
far beyond the binary64 range). -/
def bitLenAux : Nat → Nat → Nat
  | 0, _ => 0
  | fuel+1, n => if n = 0 then 0 else bitLenAux fuel (n / 2) + 1

def bitLen (n : Nat) : Nat := bitLenAux 4096 n

/-- Round `(P / Q) * 2 ^ eBase` to 53 significant bits, nearest, ties to
even.  `P / Q` is arranged by the caller to have 54–56 bits, so the
remainder of the division is the sticky bit and `t ∈ {2, 3}` bits are
shifted out of the quotient. -/
def rneCore (P Q : Nat) (eBase : Int) : Nat × Int :=
  let N := P / Q
  let sticky : Bool := decide (P % Q ≠ 0)
  let t := bitLen N - 53
  let m0 := N / 2^t
  let low := N % 2^t
  let up : Bool :=
    decide (2*low > 2^t ∨ (2*low = 2^t ∧ (sticky = true ∨ m0 % 2 = 1)))
  let m1 := m0 + (if up then 1 else 0)
  if m1 = 2^53 then (2^52, eBase + (t : Int) + 1) else (m1, eBase + (t : Int))

/-- The binary64 nearest double of the positive rational `p / q`, as a
(mantissa, exponent) pair with value `m * 2 ^ e`, `2^52 ≤ m < 2^53`. -/
def rneRat (p q : Nat) : Nat × Int :=
  if p = 0 then (0, 0)
  else
    let bp := bitLen p
    let bq := bitLen q
    if bp ≤ bq + 55 then
      rneCore (p * 2^(bq + 55 - bp)) q (- ((bq + 55 - bp : Nat) : Int))
    else
      rneCore p (q * 2^(bp - bq - 55)) ((bp - bq - 55 : Nat) : Int)

/-- Binary64 product of the integer `w` (exact in a double for image
sizes) and the double `d`, rounded to nearest. -/
def mulNatDouble (w : Nat) (d : Nat × Int) : Nat × Int :=
  ((rneRat (w * d.1) 1).1, (rneRat (w * d.1) 1).2 + d.2)

/-- Python `int()` on a positive double: truncation. -/
def truncDouble (d : Nat × Int) : Nat :=
  match d.2 with
  | Int.ofNat k => d.1 * 2^k
  | Int.negSucc k => d.1 / 2^(k+1)

/-- `int(long * (756 / short)) // 28 * 28` in binary64 arithmetic — the
scaled-edge expression of `get_image_bytes_and_base64`. -/
def scaled_edge (long short : Nat) : Nat :=
  truncDouble (mulNatDouble long (rneRat target_short_side short)) / 28 * 28

/-- The dimension computation of `get_image_bytes_and_base64`: when the
short edge exceeds 756 px it becomes exactly 756 and the other edge
becomes `int(other * (756/short)) // 28 * 28` in binary64 arithmetic.
When neither branch applies, `new_width`/`new_height` are never
assigned, so `img.resize` raises `NameError` — modelled as `none`. -/
def resize_dimensions (origin_width origin_height : Nat) : Option (Nat × Nat) :=
  if origin_width < origin_height ∧ origin_width > target_short_side then
    some (target_short_side, scaled_edge origin_height origin_width)
  else if origin_height ≤ origin_width ∧ origin_height > target_short_side then
    some (scaled_edge origin_width origin_height, target_short_side)
  else none

/-- Outcome of `get_image_bytes_and_base64`: either the image was resized
and re-encoded as JPEG, or the `except` fallback returned the original
bytes unchanged. -/
inductive ImageOutcome
  | normalized (width height : Nat)
  | original_passthrough
deriving DecidableEq, Repr

/-- Control flow of `get_image_bytes_and_base64` on an image of the given
dimensions: the resize succeeds only when a dimension branch was taken;
otherwise the exception handler degrades to the original bytes. -/
def get_image_bytes_outcome (origin_width origin_height : Nat) : ImageOutcome :=
  match resize_dimensions origin_width origin_height with
  | some (w, h) => ImageOutcome.normalized w h
  | none => ImageOutcome.original_passthrough

end ImageProcess

/-! ## C9 theorems -/

/-- C9 counterexample: a 500 × 400 upload (short edge ≤ 756) takes neither
resize branch, so `img.resize` raises and the fallback returns the
original bytes — the image is not normalized to a 756-px-short-edge JPEG,
refuting the claim for this uploaded image. -/
theorem image_normalize_counterexample :
    ImageProcess.get_image_bytes_outcome 500 400
      = ImageProcess.ImageOutcome.original_passthrough := by
  rfl

/-- C9 amended: every uploaded image whose short edge exceeds 756 px is
resized and re-encoded as a JPEG: the originally-shorter edge becomes
exactly 27 × 28 = 756 px, and the other edge becomes
`int(other * (756/short)) // 28 * 28` computed in IEEE-754 binary64
arithmetic — a multiple of 28 that, because the two roundings can land
one ulp below the exact value, may itself be smaller than 756 (a square
1059 × 1059 upload yields 728 × 756, so the output short edge is not
always 756).  Images whose short edge is at most 756 px take neither
resize branch and are passed through unchanged. -/
theorem image_normalize_resize (w h : Nat) (hw : 756 < w) (hh : 756 < h) :
    ∃ nw nh, ImageProcess.get_image_bytes_outcome w h
        = ImageProcess.ImageOutcome.normalized nw nh ∧
      (if w < h then nw = 756 ∧ nh = ImageProcess.scaled_edge h w
       else nh = 756 ∧ nw = ImageProcess.scaled_edge w h) ∧
      28 ∣ nw ∧ 28 ∣ nh := by
  have hts : ImageProcess.target_short_side = 756 := rfl
  unfold ImageProcess.get_image_bytes_outcome ImageProcess.resize_dimensions
  rcases lt_or_le w h with hlt | hle
  · have hcond : w < h ∧ w > ImageProcess.target_short_side := ⟨hlt, by omega⟩
    rw [if_pos hcond]
    refine ⟨756, ImageProcess.scaled_edge h w, rfl, ?_, ?_, ?_⟩
    · rw [if_pos hlt]
      exact ⟨rfl, rfl⟩
    · decide
    · exact Dvd.intro_left _ rfl
  · have hcond : ¬ (w < h ∧ w > ImageProcess.target_short_side) := by
      intro hc
      exact absurd hc.1 (not_lt.mpr hle)
    rw [if_neg hcond]
    have hcond2 : h ≤ w ∧ h > ImageProcess.target_short_side := ⟨hle, by omega⟩
    rw [if_pos hcond2]
    refine ⟨ImageProcess.scaled_edge w h, 756, rfl, ?_, ?_, ?_⟩
    · rw [if_neg (not_lt.mpr hle)]
      exact ⟨rfl, rfl⟩
    · exact Dvd.intro_left _ rfl
    · decide

/-- Witness for the amended C9: a square 1059 × 1059 upload resizes to
728 × 756 — binary64 rounding gives `int(1059 * (756/1059)) = 755`, so
the computed edge is `755 // 28 * 28 = 728`, below 756; the spec's
4000 × 3000 scenario yields 1008 × 756. -/
theorem image_normalize_resize_witness :
    (756 < 1059) ∧
    (∃ nw nh, ImageProcess.get_image_bytes_outcome 1059 1059
        = ImageProcess.ImageOutcome.normalized nw nh ∧
      (if (1059 : Nat) < 1059 then
        nw = 756 ∧ nh = ImageProcess.scaled_edge 1059 1059
       else nh = 756 ∧ nw = ImageProcess.scaled_edge 1059 1059) ∧
      28 ∣ nw ∧ 28 ∣ nh) ∧
    ImageProcess.get_image_bytes_outcome 1059 1059
      = ImageProcess.ImageOutcome.normalized 728 756 ∧
    ImageProcess.get_image_bytes_outcome 4000 3000
      = ImageProcess.ImageOutcome.normalized 1008 756 :=
  ⟨by decide,
   image_normalize_resize 1059 1059 (by decide) (by decide),
   by decide, by decide⟩

namespace Streamer

/-! ## The sing branch of `LuoTianyiAgent.shared_process_pipeline`

A generated `sing` conversation entry carries the display text built in
step 5a (`"（唱歌）：《" + song + "》\n" + lyrics`) and the base-64 encoded
audio fetched from the song catalog; step 5c chunks the base-64 string
into 640 KiB pieces and frames them. -/

/-- One streamed frame (`ChatResponse`). -/
structure ChatResponse where
  uuid : String
  text : String
  expression : Option String
  audio : List Char
  is_final_package : Bool
deriving DecidableEq, Repr

/-- `chunk_size = 640 * 1024  # 640KB per chunk` -/
def chunk_size : Nat := 640 * 1024

/-- The sing text of step 5a:
`"（唱歌）：《" + parameter.song + "》\n" + "\n".join(lrc)`. -/
def sing_sent_text (song : String) (lrc : List String) : String :=
  "（唱歌）：《" ++ song ++ "》\n" ++ String.intercalate "\n" lrc

/-- The chunking loop `for i in range(0, total_length, chunk_size)`:
each frame carries the next ≤ 640 KiB slice of the base-64 string; only
the `i = 0` frame carries the text and the `唱歌` expression;
`is_final_package = (i + chunk_size >= total_length)`. -/
def sing_frames_go (uuid sent_text : String) (total i : Nat)
    (rest : List Char) : List ChatResponse :=
  if h : rest = [] then []
  else
    { uuid := uuid
      text := if i = 0 then sent_text else ""
      expression := if i = 0 then some "唱歌" else none
      audio := rest.take chunk_size
      is_final_package := decide (i + chunk_size ≥ total) } ::
    sing_frames_go uuid sent_text total (i + chunk_size) (rest.drop chunk_size)
termination_by rest.length
decreasing_by
  have hc : 0 < chunk_size := by norm_num [chunk_size]
  have hr : 0 < rest.length := List.length_pos.mpr h
  simp only [List.length_drop]
  omega

/-- The sing branch of step 5c: an empty audio string degrades to a single
text-only frame; otherwise the audio is streamed with `sing_frames_go`. -/
def shared_process_sing (uuid sent_text : String) (sing_audio : List Char) :
    List ChatResponse :=
  if sing_audio.length = 0 then
    [{ uuid := "", text := sent_text, expression := some "唱歌",
       audio := [], is_final_package := true }]
  else sing_frames_go uuid sent_text sing_audio.length 0 sing_audio

theorem sing_go_audio_join (uuid st : String) (total i : Nat)
    (rest : List Char) :
    ((sing_frames_go uuid st total i rest).map (fun f => f.audio)).flatten
      = rest := by
  rw [sing_frames_go]
  by_cases h : rest = []
  · simp [h]
  · simp only [dif_neg h, List.map_cons, List.flatten_cons]
    rw [sing_go_audio_join uuid st total (i + chunk_size) (rest.drop chunk_size)]
    exact List.take_append_drop _ _
termination_by rest.length
decreasing_by
  have hc : 0 < chunk_size := by norm_num [chunk_size]
  have hr : 0 < rest.length := List.length_pos.mpr h
  simp only [List.length_drop]
  omega

theorem sing_go_chunk_bound (uuid st : String) (total i : Nat)
    (rest : List Char) :
    ∀ f ∈ sing_frames_go uuid st total i rest, f.audio.length ≤ chunk_size := by
  rw [sing_frames_go]
  by_cases h : rest = []
  · simp [h]
  · simp only [dif_neg h]
    intro f hf
    rcases List.mem_cons.mp hf with rfl | hf'
    · simpa using List.length_take_le _ _
    · exact sing_go_chunk_bound uuid st total (i + chunk_size)
        (rest.drop chunk_size) f hf'
termination_by rest.length
decreasing_by
  have hc : 0 < chunk_size := by norm_num [chunk_size]
  have hr : 0 < rest.length := List.length_pos.mpr h
  simp only [List.length_drop]
  omega

theorem sing_go_tail_silent (uuid st : String) (total i : Nat)
    (rest : List Char) (hi : 0 < i) :
    ∀ f ∈ sing_frames_go uuid st total i rest,
      f.text = "" ∧ f.expression = none := by
  rw [sing_frames_go]
  by_cases h : rest = []
  · simp [h]
  · simp only [dif_neg h]
    intro f hf
    rcases List.mem_cons.mp hf with rfl | hf'
    · constructor
      · simp [Nat.pos_iff_ne_zero.mp hi]
      · simp [Nat.pos_iff_ne_zero.mp hi]
    · exact sing_go_tail_silent uuid st total (i + chunk_size)
        (rest.drop chunk_size) (by positivity) f hf'
termination_by rest.length
decreasing_by
  have hc : 0 < chunk_size := by norm_num [chunk_size]
  have hr : 0 < rest.length := List.length_pos.mpr h
  simp only [List.length_drop]
  omega

theorem sing_go_final_marker (uuid st : String) (total i : Nat)
    (rest : List Char) (h : rest ≠ []) (hinv : total = i + rest.length) :
    sing_frames_go uuid st total i rest ≠ [] ∧
    (∀ f ∈ (sing_frames_go uuid st total i rest).dropLast,
      f.is_final_package = false) ∧
    ((sing_frames_go uuid st total i rest).getLast?.map
      (fun f => f.is_final_package) = some true) := by
  rw [sing_frames_go]
  simp only [dif_neg h]
  by_cases hlast : rest.drop chunk_size = []
  · have hle : rest.length ≤ chunk_size := by
      have := List.length_drop chunk_size rest
      rw [hlast] at this
      simp at this
      omega
    rw [sing_frames_go]
    simp only [hlast, dif_pos]
    refine ⟨by simp, by simp, ?_⟩
    simp only [List.getLast?_singleton, Option.map_some]
    have : i + chunk_size ≥ total := by omega
    simp [this]
  · have hlen : chunk_size < rest.length := by
      by_contra hcon
      exact hlast (List.drop_eq_nil_of_le (by omega))
    obtain ⟨hne, hdrop, hlastone⟩ := sing_go_final_marker uuid st total
      (i + chunk_size) (rest.drop chunk_size) hlast
      (by simp only [List.length_drop]; omega)
    refine ⟨by simp, ?_, ?_⟩
    · rw [List.dropLast_cons_of_ne_nil hne]
      intro f hf
      rcases List.mem_cons.mp hf with rfl | hf'
      · have : ¬ (i + chunk_size ≥ total) := by omega
        simp [this]
      · exact hdrop f hf'
    · obtain ⟨f', l', hfl⟩ := List.exists_cons_of_ne_nil hne
      rw [hfl] at hlastone ⊢
      rw [List.getLast?_cons_cons]
      exact hlastone
termination_by rest.length
decreasing_by
  have hc : 0 < chunk_size := by norm_num [chunk_size]
  have hr : 0 < rest.length := List.length_pos.mpr h
  simp only [List.length_drop]
  omega

end Streamer

/-! ## C6 theorem -/

/-- C6: for every sing item with non-empty audio, the streamer emits the
base-64 audio in order in chunks of at most 640 KiB: the concatenation of
the frames' audio is exactly the audio string, every chunk is ≤ 640 KiB,
only the first frame carries the text `（唱歌）：《song》\n<lyrics>` and the
expression `唱歌` (all later frames have empty text and no expression),
and exactly the last frame has `is_final_package = true`. -/
theorem sing_stream_frames (uuid song : String) (lrc : List String)
    (audio : List Char) (h : audio ≠ []) :
    ((Streamer.shared_process_sing uuid (Streamer.sing_sent_text song lrc)
        audio).map (fun f => f.audio)).flatten = audio ∧
    (∀ f ∈ Streamer.shared_process_sing uuid
        (Streamer.sing_sent_text song lrc) audio,
      f.audio.length ≤ Streamer.chunk_size) ∧
    (∃ f0 frames,
      Streamer.shared_process_sing uuid (Streamer.sing_sent_text song lrc)
          audio = f0 :: frames ∧
      f0.text = Streamer.sing_sent_text song lrc ∧
      f0.expression = some "唱歌" ∧
      (∀ f ∈ frames, f.text = "" ∧ f.expression = none)) ∧
    (∀ f ∈ (Streamer.shared_process_sing uuid
        (Streamer.sing_sent_text song lrc) audio).dropLast,
      f.is_final_package = false) ∧
    ((Streamer.shared_process_sing uuid (Streamer.sing_sent_text song lrc)
        audio).getLast?.map (fun f => f.is_final_package) = some true) := by
  have hlen : audio.length ≠ 0 := fun hh => h (List.length_eq_zero.mp hh)
  unfold Streamer.shared_process_sing
  rw [if_neg hlen]
  obtain ⟨hne, hdrop, hlast⟩ := Streamer.sing_go_final_marker uuid
    (Streamer.sing_sent_text song lrc) audio.length 0 audio h (by omega)
  refine ⟨Streamer.sing_go_audio_join _ _ _ _ _,
    Streamer.sing_go_chunk_bound _ _ _ _ _, ?_, hdrop, hlast⟩
  rw [Streamer.sing_frames_go]
  simp only [dif_neg h]
  refine ⟨_, _, rfl, by simp, by simp, ?_⟩
  intro f hf
  exact Streamer.sing_go_tail_silent uuid _ audio.length Streamer.chunk_size
    (audio.drop Streamer.chunk_size) (by norm_num [Streamer.chunk_size]) f hf

/-- Witness for C6 on a one-character audio string: a single frame
carrying the whole audio, the sing text, the expression, and the final
marker. -/
theorem sing_stream_frames_witness :
    ((Streamer.shared_process_sing "u" (Streamer.sing_sent_text "光与影的对白"
        ["line1"]) ['a']).map (fun f => f.audio)).flatten = ['a'] ∧
    (∀ f ∈ Streamer.shared_process_sing "u"
        (Streamer.sing_sent_text "光与影的对白" ["line1"]) ['a'],
      f.audio.length ≤ Streamer.chunk_size) ∧
    (∃ f0 frames,
      Streamer.shared_process_sing "u" (Streamer.sing_sent_text "光与影的对白"
          ["line1"]) ['a'] = f0 :: frames ∧
      f0.text = Streamer.sing_sent_text "光与影的对白" ["line1"] ∧
      f0.expression = some "唱歌" ∧
      (∀ f ∈ frames, f.text = "" ∧ f.expression = none)) ∧
    (∀ f ∈ (Streamer.shared_process_sing "u"
        (Streamer.sing_sent_text "光与影的对白" ["line1"]) ['a']).dropLast,
      f.is_final_package = false) ∧
    ((Streamer.shared_process_sing "u" (Streamer.sing_sent_text "光与影的对白"
        ["line1"]) ['a']).getLast?.map (fun f => f.is_final_package)
      = some true) :=
  sing_stream_frames "u" "光与影的对白" ["line1"] ['a'] (by decide)

namespace MemorySearch

/-! ## `MemorySearcher._search_song_by_lyrics`: the snippet gate

The snippet is cleaned by removing emoji characters
(`emoji_pattern.sub(r'', ...)` over four Unicode ranges), collapsing each
whitespace run into a single space (`re.sub(r'\\s+', ' ', ...)`) and
stripping the ends; snippets whose cleaned length is below 8 are rejected
before any catalog search. -/

/-- Membership in the `emoji_pattern` character class. -/
def isEmojiChar (c : Char) : Bool :=
  (0x1F600 ≤ c.toNat ∧ c.toNat ≤ 0x1F64F) ∨
  (0x1F300 ≤ c.toNat ∧ c.toNat ≤ 0x1F5FF) ∨
  (0x1F680 ≤ c.toNat ∧ c.toNat ≤ 0x1F6FF) ∨
  (0x1F1E0 ≤ c.toNat ∧ c.toNat ≤ 0x1F1FF)

/-- `re.sub(r'\\s+', ' ', s)`: replace every whitespace run by one space;
`inRun` records whether the scanner is inside a whitespace run whose
single replacement space has already been emitted. -/
def collapseSpacesGo (inRun : Bool) : List Char → List Char
  | [] => []
  | c :: cs =>
    if pyIsSpace c then
      if inRun then collapseSpacesGo true cs
      else ' ' :: collapseSpacesGo true cs
    else c :: collapseSpacesGo false cs

def collapseSpaces (s : List Char) : List Char := collapseSpacesGo false s

/-- `cleaned_snippet = re.sub(r'\\s+', ' ', emoji_pattern.sub(r'', s)).strip()`. -/
def cleaned_snippet (lyrics_snippet : List Char) : List Char :=
  pyStrip (collapseSpaces (lyrics_snippet.filter (fun c => ¬ isEmojiChar c)))

/-- The control flow of `_search_song_by_lyrics` up to its first return:
either the cleaned snippet is rejected (`return []`) or the catalog
substring search runs on the cleaned snippet. -/
inductive LyricsSearchOutcome
  | rejected
  | searched (cleaned : List Char)
deriving DecidableEq, Repr

def search_song_by_lyrics_outcome (lyrics_snippet : List Char) :
    LyricsSearchOutcome :=
  if (cleaned_snippet lyrics_snippet).length < 8 then
    LyricsSearchOutcome.rejected
  else LyricsSearchOutcome.searched (cleaned_snippet lyrics_snippet)

/-- The claim's measure: the number of non-whitespace characters of the
raw snippet. -/
def nonWhitespaceCount (s : List Char) : Nat :=
  (s.filter (fun c => ¬ pyIsSpace c)).length

theorem collapseSpacesGo_length_le (inRun : Bool) (s : List Char) :
    (collapseSpacesGo inRun s).length ≤ s.length := by
  induction s generalizing inRun with
  | nil => simp [collapseSpacesGo]
  | cons c cs ih =>
      rw [collapseSpacesGo]
      by_cases h : pyIsSpace c
      · cases inRun with
        | true =>
            rw [if_pos h, if_pos rfl]
            have := ih true
            simp only [List.length_cons]
            omega
        | false =>
            rw [if_pos h, if_neg (by decide : ¬ (false = true))]
            have := ih true
            simp only [List.length_cons]
            omega
      · simp only [if_neg h, List.length_cons]
        have := ih false
        omega

theorem collapseSpaces_length_le (s : List Char) :
    (collapseSpaces s).length ≤ s.length :=
  collapseSpacesGo_length_le false s

theorem pyStrip_length_le (s : List Char) : (pyStrip s).length ≤ s.length := by
  unfold pyStrip
  have h1 := length_dropWhile_le pyIsSpace s
  have h2 := length_dropWhile_le pyIsSpace (s.dropWhile pyIsSpace).reverse
  simp only [List.length_reverse] at *
  omega

theorem cleaned_snippet_length_le (s : List Char) :
    (cleaned_snippet s).length ≤ s.length := by
  unfold cleaned_snippet
  have h1 := pyStrip_length_le (collapseSpaces (s.filter (fun c => ¬ isEmojiChar c)))
  have h2 := collapseSpaces_length_le (s.filter (fun c => ¬ isEmojiChar c))
  have h3 := List.length_filter_le (fun c => ¬ isEmojiChar c) s
  omega

end MemorySearch

/-! ## C8 theorems -/

/-- C8 counterexample: the snippet `"a b c d e"` has five non-whitespace
characters (fewer than 8), yet its cleaned form keeps the four interior
single spaces and has length 9 ≥ 8, so the snippet is **not** rejected
and the catalog search runs — refuting the claim that every snippet with
fewer than 8 non-whitespace characters returns no results. -/
theorem lyrics_snippet_counterexample :
    MemorySearch.nonWhitespaceCount ("a b c d e".toList) = 5 ∧ 5 < 8 ∧
    MemorySearch.search_song_by_lyrics_outcome ("a b c d e".toList)
      ≠ MemorySearch.LyricsSearchOutcome.rejected := by
  refine ⟨by decide, by decide, ?_⟩
  decide

/-- C8 amended: `search_song_by_lyrics` rejects (returns no results
before any catalog search) exactly those snippets whose cleaned form —
emoji characters removed, whitespace runs collapsed to single spaces,
ends stripped — has fewer than 8 characters; in particular every snippet
with fewer than 8 characters overall is rejected. -/
theorem lyrics_snippet_rejection (s : List Char) :
    (MemorySearch.search_song_by_lyrics_outcome s
        = MemorySearch.LyricsSearchOutcome.rejected
      ↔ (MemorySearch.cleaned_snippet s).length < 8) ∧
    (s.length < 8 →
      MemorySearch.search_song_by_lyrics_outcome s
        = MemorySearch.LyricsSearchOutcome.rejected) := by
  constructor
  · unfold MemorySearch.search_song_by_lyrics_outcome
    by_cases h : (MemorySearch.cleaned_snippet s).length < 8
    · simp [h]
    · simp [h]
  · intro hs
    unfold MemorySearch.search_song_by_lyrics_outcome
    have := MemorySearch.cleaned_snippet_length_le s
    rw [if_pos (by omega)]

/-- Witness for the amended C8 at the concrete snippet `"短歌词"`
(3 characters): it is rejected. -/
theorem lyrics_snippet_rejection_witness :
    (MemorySearch.search_song_by_lyrics_outcome ("短歌词".toList)
        = MemorySearch.LyricsSearchOutcome.rejected
      ↔ (MemorySearch.cleaned_snippet ("短歌词".toList)).length < 8) ∧
    ("短歌词".toList.length < 8 →
      MemorySearch.search_song_by_lyrics_outcome ("短歌词".toList)
        = MemorySearch.LyricsSearchOutcome.rejected) :=
  lyrics_snippet_rejection ("短歌词".toList)

namespace Splitter

/-! ## `LuoTianyiAgent._split_responses`

The sentence splitter of the response streamer.  `OneSentenceChat` is the
dataclass from `main_chat.py`; contents are `List Char`.  The splitter
performs: `re.split` on `(?:\\.{3}|[。，！？~,])` keeping separators;
merging of separator-only parts into the preceding sentence; the
paren-attachment rules for leading `（…）`/`(…)` runs; and the ≥ 6 buffer
flush with `str.strip()`. -/

/-- `OneSentenceChat` (dataclass): expression, tone, content,
sound_content. -/
structure OneSentenceChat where
  expression : String
  tone : String
  content : List Char
  sound_content : List Char
deriving DecidableEq, Repr

/-- The separator character class `[。，！？~,]`. -/
def isSepChar (c : Char) : Bool :=
  c = '。' ∨ c = '，' ∨ c = '！' ∨ c = '？' ∨ c = '~' ∨ c = ','

/-- The three-dot ellipsis separator `\\.{3}`. -/
def threeDots : List Char := ['.', '.', '.']

/-- Prepend a character to the first part of a parts list. -/
def consHead (c : Char) : List (List Char) → List (List Char)
  | [] => [[c]]
  | t :: ps => (c :: t) :: ps

/-- `re.split(r"((?:\\.{3}|[。，！？~,]))", s)`: the alternating list
`[text0, sep1, text1, …, sepn, textn]` (text parts may be empty), by the
leftmost-first scan of the regex engine. -/
def rawParts : List Char → List (List Char)
  | [] => [[]]
  | c :: rest =>
    if isSepChar c then [] :: [c] :: rawParts rest
    else if c = '.' then
      match rest with
      | c2 :: c3 :: r2 =>
        if c2 = '.' ∧ c3 = '.' then [] :: threeDots :: rawParts r2
        else consHead c (rawParts (c2 :: c3 :: r2))
      | r2 => consHead c (rawParts r2)
    else consHead c (rawParts rest)

/-- `punct_pattern = re.compile(r"^(?:\\.{3}|[。，！？~,])+$")`, unit
consumption after the first unit. -/
def punctRunAux : List Char → Bool
  | [] => true
  | c :: rest =>
    if c = '.' then
      match rest with
      | c2 :: c3 :: r2 => if c2 = '.' ∧ c3 = '.' then punctRunAux r2 else false
      | _ => false
    else isSepChar c && punctRunAux rest

/-- `punct_pattern.match(s)` as a total test (the pattern needs at least
one unit, so the empty string does not match). -/
def isPunctRun : List Char → Bool
  | [] => false
  | c :: rest => punctRunAux (c :: rest)

/-- The merging loop over the split parts: empty parts are skipped,
separator-only parts are appended to the previous sentence, other parts
start a new sentence.  `cur` is the sentence currently being built. -/
def mergeGo (cur : List Char) : List (List Char) → List (List Char)
  | [] => [cur]
  | p :: ps =>
    if p = [] then mergeGo cur ps
    else if isPunctRun p then mergeGo (cur ++ p) ps
    else cur :: mergeGo p ps

/-- `sentences_with_punct`: skip leading empty parts, then merge. -/
def sentencesOfParts : List (List Char) → List (List Char)
  | [] => []
  | p :: ps => if p = [] then sentencesOfParts ps else mergeGo p ps

/-- The sentence list of a content string. -/
def sentences (s : List Char) : List (List Char) :=
  sentencesOfParts (rawParts s)

/-- The search for the lazy closing bracket of `\\（.*?\\）` (or the ASCII
pair): `.` does not match a newline, so the match is the shortest prefix
ending at the first closing bracket, provided no newline precedes it.
Returns (matched suffix including the bracket, remainder). -/
def scanParen (closeCh : Char) : List Char → Option (List Char × List Char)
  | [] => none
  | c :: cs =>
    if c = closeCh then some ([c], cs)
    else if c = '\n' then none
    else
      match scanParen closeCh cs with
      | some (m, r) => some (c :: m, r)
      | none => none

/-- `re.match(r"^(\\（.*?\\）|\\(.*?\\))", sentence)`: a complete
parenthesized run at the start of the sentence.  Returns
(matched run, rest of the sentence). -/
def parenMatch : List Char → Option (List Char × List Char)
  | [] => none
  | c :: rest =>
    if c = '（' then
      match scanParen '）' rest with
      | some (m, r) => some ('（' :: m, r)
      | none => none
    else if c = '(' then
      match scanParen ')' rest with
      | some (m, r) => some ('(' :: m, r)
      | none => none
    else none

/-- `clean_sound_content`: `re.sub(r"（.*?）|\\(.*?\\)", "", text)`, i.e.
remove every leftmost non-overlapping parenthesized run.  The scan
consumes at least one character per step, so `fuel = s.length` never runs
out; the fuel only makes the recursion structural. -/
def cleanSoundGo : Nat → List Char → List Char
  | _, [] => []
  | 0, s => s
  | fuel + 1, c :: cs =>
    if c = '（' then
      match scanParen '）' cs with
      | some (_, r) => cleanSoundGo fuel r
      | none => c :: cleanSoundGo fuel cs
    else if c = '(' then
      match scanParen ')' cs with
      | some (_, r) => cleanSoundGo fuel r
      | none => c :: cleanSoundGo fuel cs
    else c :: cleanSoundGo fuel cs

def clean_sound_content (s : List Char) : List Char := cleanSoundGo s.length s

/-- Append a parenthesized run to the content of the last emitted
fragment (`split_responses[-1].content += paren_content`; the
`sound_content` field is deliberately not updated by the source). -/
def appendToLastContent : List OneSentenceChat → List Char → List OneSentenceChat
  | [], _ => []
  | [r], p => [{ r with content := r.content ++ p }]
  | r :: rs, p => r :: appendToLastContent rs p

/-- A flushed fragment: content is the stripped buffer, `sound_content`
strips the parenthesized runs. -/
def mkFragment (e t : String) (buf : List Char) : OneSentenceChat :=
  { expression := e
    tone := t
    content := pyStrip buf
    sound_content := clean_sound_content (pyStrip buf) }

/-- The sentence loop of `_split_responses` for one response: leading
parenthesized runs are moved to the buffer (if it has visible content),
else to the last emitted fragment (if any), else kept in place; the
buffer is flushed when it reaches length ≥ 6 or at the last sentence,
provided its stripped form is non-empty. -/
def processSens (e t : String) :
    List OneSentenceChat → List Char → List (List Char) → List OneSentenceChat
  | acc, _, [] => acc
  | acc, buf, sen :: rest =>
    let step : List OneSentenceChat × List Char × List Char :=
      match parenMatch sen with
      | none => (acc, buf, sen)
      | some (paren, sen2) =>
        if pyStrip buf ≠ [] then (acc, buf ++ paren, sen2)
        else if acc ≠ [] then (appendToLastContent acc paren, buf, sen2)
        else (acc, buf, paren ++ sen2)
    let buf2 := step.2.1 ++ step.2.2
    if buf2.length ≥ 6 ∨ rest = [] then
      if pyStrip buf2 ≠ [] then
        processSens e t (step.1 ++ [mkFragment e t buf2]) [] rest
      else processSens e t step.1 buf2 rest
    else processSens e t step.1 buf2 rest

/-- Processing of one response item in the outer loop (the accumulator
`split_responses` is shared across the whole response list). -/
def split_one (acc : List OneSentenceChat) (resp : OneSentenceChat) :
    List OneSentenceChat :=
  processSens resp.expression resp.tone acc [] (sentences resp.content)

/-- `_split_responses`. -/
def split_responses (responses : List OneSentenceChat) :
    List OneSentenceChat :=
  responses.foldl split_one []

end Splitter

namespace Splitter

/-- No opening parenthesis (full-width or ASCII) occurs in the string;
the paren-attachment rules of the splitter are driven entirely by
opening brackets at sentence starts. -/
def noOpenParen (s : List Char) : Bool :=
  s.all (fun c => ¬ (c = '（' ∨ c = '('))

end Splitter

/-! ## C7 counterexample -/

/-- C7 counterexample: the list produced by splitting
`"abcdef,(a)(b)c"` is `["abcdef,(a)", "(b)c"]`; splitting it again moves
the leading parenthesized run `(b)` of the second fragment onto the first
fragment, giving `["abcdef,(a)(b)", "c"]` — so the splitter is not
idempotent on its own output. -/
theorem splitter_not_idempotent :
    Splitter.split_responses (Splitter.split_responses
        [{ expression := "happy", tone := "normal",
           content := "abcdef,(a)(b)c".toList, sound_content := [] }])
      ≠ Splitter.split_responses
        [{ expression := "happy", tone := "normal",
           content := "abcdef,(a)(b)c".toList, sound_content := [] }] := by
  decide

namespace Splitter

/-! ### String-primitive lemmas for the splitter proofs -/

theorem dropWhile_eq_nil_iff_all (p : Char → Bool) (l : List Char) :
    l.dropWhile p = [] ↔ l.all p := by
  induction l with
  | nil => simp
  | cons c t ih =>
      by_cases h : p c
      · simp [List.dropWhile_cons, h, ih]
      · simp [List.dropWhile_cons, h]

theorem head_not_of_dropWhile_eq_self (p : Char → Bool) (c : Char)
    (t : List Char) (h : (c :: t).dropWhile p = c :: t) : p c = false := by
  by_cases hc : p c
  · exfalso
    rw [List.dropWhile_cons, if_pos hc] at h
    have := length_dropWhile_le p t
    have h2 := congrArg List.length h
    simp at h2
    omega
  · simpa using hc

theorem dropWhile_eq_self_of_head (p : Char → Bool) (c : Char)
    (t : List Char) (h : p c = false) : (c :: t).dropWhile p = c :: t := by
  rw [List.dropWhile_cons, if_neg (by simp [h])]

/-- The back-strip component of `pyStrip`. -/
def backStrip (l : List Char) : List Char :=
  (l.reverse.dropWhile pyIsSpace).reverse

theorem pyStrip_eq_backStrip_dropWhile (s : List Char) :
    pyStrip s = backStrip (s.dropWhile pyIsSpace) := rfl

theorem backStrip_prefix_self (l : List Char) : backStrip l <+: l := by
  have h := List.dropWhile_suffix (l := l.reverse) pyIsSpace
  have := List.reverse_prefix.mpr h
  simpa [backStrip] using this

theorem dropWhile_prefix_eq_self (p : Char → Bool) (l m : List Char)
    (hpre : m <+: l) (hl : l.dropWhile p = l) : m.dropWhile p = m := by
  cases m with
  | nil => simp
  | cons c t =>
      obtain ⟨r, hr⟩ := hpre
      cases l with
      | nil => simp at hr
      | cons c' t' =>
          have hc : c' = c := by
            have := congrArg (List.head? ·) hr
            simpa using this.symm
          have hx := head_not_of_dropWhile_eq_self p c' t' hl
          rw [hc] at hx
          exact dropWhile_eq_self_of_head p c t hx

theorem dropWhile_backStrip (l : List Char) (hl : l.dropWhile pyIsSpace = l) :
    (backStrip l).dropWhile pyIsSpace = backStrip l :=
  dropWhile_prefix_eq_self pyIsSpace l (backStrip l) (backStrip_prefix_self l) hl

theorem backStrip_idem (l : List Char) : backStrip (backStrip l) = backStrip l := by
  simp [backStrip, List.reverse_reverse, List.dropWhile_idempotent]

theorem pyStrip_idem (s : List Char) : pyStrip (pyStrip s) = pyStrip s := by
  rw [pyStrip_eq_backStrip_dropWhile, pyStrip_eq_backStrip_dropWhile]
  rw [dropWhile_backStrip (s.dropWhile pyIsSpace) (List.dropWhile_idempotent _ _)]
  exact backStrip_idem _

theorem backStrip_eq_nil_iff_all (l : List Char) :
    backStrip l = [] ↔ l.all pyIsSpace := by
  rw [backStrip, List.reverse_eq_nil_iff, dropWhile_eq_nil_iff_all]
  simp [List.all_reverse]

theorem pyStrip_eq_nil_iff_all (s : List Char) :
    pyStrip s = [] ↔ s.all pyIsSpace := by
  rw [pyStrip_eq_backStrip_dropWhile, backStrip_eq_nil_iff_all]
  constructor
  · intro h
    induction s with
    | nil => simp
    | cons c t ih =>
        by_cases hc : pyIsSpace c
        · rw [List.dropWhile_cons, if_pos hc] at h
          simp [hc, ih h]
        · rw [List.dropWhile_cons, if_neg hc] at h
          simp at h
          simp [h.1] at hc
  · intro h
    have : s.dropWhile pyIsSpace = [] := (dropWhile_eq_nil_iff_all _ _).mpr h
    simp [this]

theorem backStrip_append (a b : List Char) :
    backStrip (a ++ b)
      = if backStrip b = [] then backStrip a else a ++ backStrip b := by
  unfold backStrip
  rw [List.reverse_append, List.dropWhile_append]
  by_cases h : (b.reverse.dropWhile pyIsSpace).isEmpty
  · rw [if_pos h]
    rw [if_pos (by simpa [List.reverse_eq_nil_iff] using (List.isEmpty_iff.mp h))]
  · rw [if_neg h]
    rw [if_neg (by
      intro hcon
      exact h (List.isEmpty_iff.mpr (by simpa [List.reverse_eq_nil_iff] using hcon)))]
    simp

theorem dropWhile_append_of_ne_nil (p : Char → Bool) (a b : List Char)
    (h : a.dropWhile p ≠ []) :
    (a ++ b).dropWhile p = a.dropWhile p ++ b := by
  rw [List.dropWhile_append, if_neg (by simpa [List.isEmpty_iff] using h)]

end Splitter

namespace Splitter

/-! ### Text parts, separator units, and the canonical parse -/

/-- A separator unit of the split pattern: the three-dot ellipsis or a
single separator character. -/
def SepUnit (u : List Char) : Prop :=
  u = threeDots ∨ ∃ c, isSepChar c = true ∧ u = [c]

/-- Does the string start with two dots (the lookahead that turns a dot
into an ellipsis match)? -/
def startsTwoDots : List Char → Bool
  | c2 :: c3 :: _ => c2 = '.' ∧ c3 = '.'
  | _ => false

/-- A canonical text part: no separator characters and no three
consecutive dots. -/
def okText : List Char → Bool
  | [] => true
  | c :: rest =>
    if isSepChar c then false
    else if c = '.' then
      if startsTwoDots rest then false else okText rest
    else okText rest

def endsWithDot (t : List Char) : Bool := t.getLast? = some '.'

/-- Reattaching a text prefix to the first part of a parts list. -/
def consText (t : List Char) (parts : List (List Char)) : List (List Char) :=
  match parts with
  | [] => [t]
  | p :: ps => (t ++ p) :: ps

/-- No ellipsis match can form across the boundary between `t` and `z`. -/
def NoCross (t z : List Char) : Prop :=
  endsWithDot t = true → z.head? ≠ some '.'

theorem rawParts_cons_sep (c : Char) (z : List Char) (h : isSepChar c = true) :
    rawParts (c :: z) = [] :: [c] :: rawParts z := by
  rw [rawParts.eq_def]
  dsimp only
  rw [if_pos h]

theorem rawParts_cons_dots (z : List Char) :
    rawParts ('.' :: '.' :: '.' :: z) = [] :: threeDots :: rawParts z := by
  rw [rawParts.eq_def]
  dsimp only
  rw [if_neg (by decide), if_pos rfl,
    if_pos (by decide : ('.' : Char) = '.' ∧ ('.' : Char) = '.')]

theorem rawParts_cons_text (c : Char) (z : List Char)
    (h1 : isSepChar c = false) (h2 : c = '.' → startsTwoDots z = false) :
    rawParts (c :: z) = consHead c (rawParts z) := by
  rw [rawParts.eq_def]
  dsimp only
  rw [if_neg (by simp [h1])]
  by_cases hc : c = '.'
  · rw [if_pos hc]
    have h3 := h2 hc
    match z with
    | [] => rfl
    | [c2] => rfl
    | c2 :: c3 :: r2 =>
        rw [startsTwoDots] at h3
        dsimp only
        rw [if_neg (by simpa using h3)]
  · rw [if_neg hc]

theorem startsTwoDots_shape (z : List Char) (h : startsTwoDots z = true) :
    ∃ r2, z = '.' :: '.' :: r2 := by
  match z with
  | [] => simp [startsTwoDots] at h
  | [c2] => simp [startsTwoDots] at h
  | c2 :: c3 :: r2 =>
      rw [startsTwoDots] at h
      simp at h
      exact ⟨r2, by rw [h.1, h.2]⟩

theorem consHead_ne_nil (c : Char) (parts : List (List Char)) :
    consHead c parts ≠ [] := by
  cases parts with
  | nil => simp [consHead]
  | cons p ps => simp [consHead]

theorem rawParts_ne_nil (s : List Char) : rawParts s ≠ [] := by
  match s with
  | [] => simp [rawParts]
  | c :: z =>
      by_cases h1 : isSepChar c
      · rw [rawParts_cons_sep c z h1]; simp
      · by_cases h2 : c = '.' ∧ startsTwoDots z = true
        · obtain ⟨r2, hz⟩ := startsTwoDots_shape z h2.2
          rw [hz, h2.1, rawParts_cons_dots]
          simp
        · have h2' : c = '.' → startsTwoDots z = false := by
            intro hc
            by_cases hs : startsTwoDots z
            · exact absurd ⟨hc, hs⟩ h2
            · simpa using hs
          rw [rawParts_cons_text c z (by simpa using h1) h2']
          exact consHead_ne_nil c _

theorem consHead_flatten (c : Char) (parts : List (List Char)) :
    (consHead c parts).flatten = c :: parts.flatten := by
  cases parts with
  | nil => simp [consHead]
  | cons p ps => simp [consHead]

theorem rawParts_flatten (s : List Char) : (rawParts s).flatten = s := by
  match s with
  | [] => simp [rawParts]
  | c :: z =>
      by_cases h1 : isSepChar c
      · rw [rawParts_cons_sep c z h1]
        simp [rawParts_flatten z]
      · by_cases h2 : c = '.' ∧ startsTwoDots z = true
        · obtain ⟨r2, hz⟩ := startsTwoDots_shape z h2.2
          rw [hz, h2.1, rawParts_cons_dots]
          simp [threeDots, rawParts_flatten r2]
        · have h2' : c = '.' → startsTwoDots z = false := by
            intro hc
            by_cases hs : startsTwoDots z
            · exact absurd ⟨hc, hs⟩ h2
            · simpa using hs
          rw [rawParts_cons_text c z (by simpa using h1) h2']
          rw [consHead_flatten, rawParts_flatten z]
termination_by s.length
decreasing_by
  · simp
  · simp [hz]
    omega
  · simp

theorem consHead_consText (c : Char) (t : List Char)
    (parts : List (List Char)) :
    consHead c (consText t parts) = consText (c :: t) parts := by
  cases parts with
  | nil => simp [consHead, consText]
  | cons p ps => simp [consHead, consText]

theorem endsWithDot_cons (c d : Char) (tr : List Char) :
    endsWithDot (c :: d :: tr) = endsWithDot (d :: tr) := by
  unfold endsWithDot
  rw [List.getLast?_cons_cons]

/-- Reattachment of a canonical text part: parsing `t ++ z` yields `t`
prepended to the first part of the parse of `z`, provided no ellipsis
forms across the boundary. -/
theorem rawParts_text_append (t z : List Char) (hok : okText t = true)
    (hcross : NoCross t z) :
    rawParts (t ++ z) = consText t (rawParts z) := by
  induction t with
  | nil =>
      obtain ⟨p, ps, hp⟩ := List.exists_cons_of_ne_nil (rawParts_ne_nil z)
      simp [consText, hp]
  | cons c t' ih =>
      rw [okText] at hok
      by_cases h1 : isSepChar c
      · rw [if_pos h1] at hok; exact absurd hok (by simp)
      · rw [if_neg h1] at hok
        have hok' : okText t' = true := by
          by_cases hc : c = '.'
          · rw [if_pos hc] at hok
            by_cases hs : startsTwoDots t'
            · rw [if_pos hs] at hok; exact absurd hok (by simp)
            · rwa [if_neg hs] at hok
          · rwa [if_neg hc] at hok
        have hstep : rawParts (c :: (t' ++ z)) = consHead c (rawParts (t' ++ z)) := by
          apply rawParts_cons_text c (t' ++ z) (by simpa using h1)
          intro hc
          rw [if_pos hc] at hok
          by_cases hs : startsTwoDots t'
          · rw [if_pos hs] at hok; exact absurd hok (by simp)
          · rw [if_neg hs] at hok
            by_cases hcon : startsTwoDots (t' ++ z)
            · exfalso
              obtain ⟨r2, hr2⟩ := startsTwoDots_shape _ hcon
              cases t' with
              | nil =>
                  simp only [List.nil_append] at hr2
                  have hend : endsWithDot (c :: ([] : List Char)) = true := by
                    rw [hc]; decide
                  have hhead := hcross hend
                  rw [hr2] at hhead
                  simp at hhead
              | cons d tr =>
                  cases tr with
                  | nil =>
                      simp only [List.cons_append, List.nil_append] at hr2
                      have hd1 : d = '.' := by
                        have := congrArg List.head? hr2
                        simpa using this
                      have hd2 : z = '.' :: r2 := by
                        have := congrArg List.tail hr2
                        simpa using this
                      have hend : endsWithDot (c :: [d]) = true := by
                        rw [endsWithDot_cons, hd1]; decide
                      have hhead := hcross hend
                      rw [hd2] at hhead
                      simp at hhead
                  | cons d2 tr2 =>
                      simp only [List.cons_append] at hr2
                      have hd1 : d = '.' := by
                        have := congrArg List.head? hr2
                        simpa using this
                      have hd2 : d2 = '.' := by
                        have := congrArg (fun l => List.head? (List.tail l)) hr2
                        simpa using this
                      rw [startsTwoDots] at hs
                      simp [hd1, hd2] at hs
            · simpa using hcon
        rw [List.cons_append, hstep]
        have hcross' : NoCross t' z := by
          intro hend
          cases t' with
          | nil => simp [endsWithDot] at hend
          | cons d tr =>
              apply hcross
              rw [endsWithDot_cons c d tr]
              exact hend
        rw [ih hok' hcross']
        exact consHead_consText c t' (rawParts z)

/-- Units parse off the front unconditionally. -/
theorem rawParts_unit_append (u z : List Char) (hu : SepUnit u) :
    rawParts (u ++ z) = [] :: u :: rawParts z := by
  rcases hu with h | ⟨c, hc, h⟩
  · subst h
    exact rawParts_cons_dots z
  · subst h
    exact rawParts_cons_sep c z hc

end Splitter

namespace Splitter

/-! ### Canonicity of the parse and structure of the merged sentences -/

/-- The canonical alternating parts structure produced by `rawParts`:
text, unit, text, …, text, with the compatibility that a text ending in a
dot is never followed by the ellipsis unit. -/
inductive AltParts : List (List Char) → Prop
  | last : ∀ t, okText t = true → AltParts [t]
  | cons : ∀ t u rest, okText t = true → SepUnit u →
      (u = threeDots → endsWithDot t = false) → AltParts rest →
      AltParts (t :: u :: rest)

theorem startsTwoDots_append (a b : List Char) (h : startsTwoDots a = true) :
    startsTwoDots (a ++ b) = true := by
  obtain ⟨r2, hr⟩ := startsTwoDots_shape a h
  rw [hr]
  simp only [List.cons_append]
  rw [startsTwoDots]
  decide

theorem altParts_rawParts (s : List Char) : AltParts (rawParts s) := by
  match s with
  | [] => exact AltParts.last [] rfl
  | c :: z =>
      by_cases h1 : isSepChar c
      · rw [rawParts_cons_sep c z h1]
        refine AltParts.cons [] [c] (rawParts z) rfl (Or.inr ⟨c, h1, rfl⟩) ?_
          (altParts_rawParts z)
        intro hu
        exfalso
        have : ([c] : List Char).length = threeDots.length := by rw [hu]
        simp [threeDots] at this
      · by_cases h2 : c = '.' ∧ startsTwoDots z = true
        · obtain ⟨r2, hz⟩ := startsTwoDots_shape z h2.2
          rw [hz, h2.1, rawParts_cons_dots]
          exact AltParts.cons [] threeDots (rawParts r2) rfl (Or.inl rfl)
            (fun _ => rfl) (altParts_rawParts r2)
        · have h2' : c = '.' → startsTwoDots z = false := by
            intro hc
            by_cases hs : startsTwoDots z
            · exact absurd ⟨hc, hs⟩ h2
            · simpa using hs
          rw [rawParts_cons_text c z (by simpa using h1) h2']
          have hA := altParts_rawParts z
          have hflat : (rawParts z).flatten = z := rawParts_flatten z
          revert hA hflat
          generalize rawParts z = P
          intro hA hflat
          cases hA with
          | last t hok =>
              refine AltParts.last (c :: t) ?_
              rw [okText, if_neg h1]
              by_cases hc : c = '.'
              · rw [if_pos hc]
                have hzt : z = t := by simpa using hflat.symm
                rw [if_neg (by rw [← hzt]; simp [h2' hc])]
                exact hok
              · rw [if_neg hc]
                exact hok
          | cons t u rest hok hu hcomp hrest =>
              have hzflat : z = t ++ (u :: rest).flatten := by
                simpa using hflat.symm
              refine AltParts.cons (c :: t) u rest ?_ hu ?_ hrest
              · rw [okText, if_neg h1]
                by_cases hc : c = '.'
                · rw [if_pos hc]
                  have hst : startsTwoDots t = false := by
                    by_cases hs : startsTwoDots t
                    · exfalso
                      have := startsTwoDots_append t (u :: rest).flatten hs
                      rw [← hzflat] at this
                      rw [h2' hc] at this
                      exact absurd this (by simp)
                    · simpa using hs
                  rw [if_neg (by simp [hst])]
                  exact hok
                · rw [if_neg hc]
                  exact hok
              · intro hu3
                cases t with
                | nil =>
                    by_cases hc : c = '.'
                    · exfalso
                      rw [hu3] at hzflat
                      have hz2 : startsTwoDots z = true := by
                        rw [hzflat]
                        simp only [List.nil_append, List.flatten_cons, threeDots,
                          List.cons_append]
                        rw [startsTwoDots]
                        decide
                      rw [h2' hc] at hz2
                      exact absurd hz2 (by simp)
                    · unfold endsWithDot
                      simp [hc]
                | cons d tr =>
                    rw [endsWithDot_cons c d tr]
                    exact hcomp hu3
termination_by s.length
decreasing_by
  · simp
  · simp [hz]
    omega
  · simp

/-- Parse data for one merged sentence: its text part and the separator
units appended to it. -/
structure SenData where
  txt : List Char
  units : List (List Char)

def SenData.val (d : SenData) : List Char := d.txt ++ d.units.flatten

def unitsOK (us : List (List Char)) : Prop := ∀ u ∈ us, SepUnit u

/-- Well-formed sentence data: canonical text, units, and text/first-unit
compatibility. -/
def SenData.WF (d : SenData) : Prop :=
  okText d.txt = true ∧ unitsOK d.units ∧
    (∀ u, d.units.head? = some u → u = threeDots → endsWithDot d.txt = false)

/-- The chain structure of a sentence list: every sentence is
well-formed, every non-last sentence ends with at least one unit, every
non-first sentence has a non-empty text part (`b = true` marks the first
position, whose text may be empty). -/
inductive Chain : Bool → List SenData → Prop
  | nil : ∀ b, Chain b []
  | last : ∀ b d, d.WF → (b = false → d.txt ≠ []) → Chain b [d]
  | cons : ∀ b d ds, d.WF → d.units ≠ [] → (b = false → d.txt ≠ []) →
      ds ≠ [] → Chain false ds → Chain b (d :: ds)

theorem SepUnit.ne_nil {u : List Char} (hu : SepUnit u) : u ≠ [] := by
  rcases hu with h | ⟨c, _, h⟩ <;> simp [h, threeDots]

theorem isSepChar_elim (c : Char) (h : isSepChar c = true) :
    c = '。' ∨ c = '，' ∨ c = '！' ∨ c = '？' ∨ c = '~' ∨ c = ',' := by
  have := of_decide_eq_true h
  tauto

theorem SepUnit.punctRun {u : List Char} (hu : SepUnit u) :
    isPunctRun u = true := by
  rcases hu with h | ⟨c, hc, h⟩
  · rw [h]; decide
  · rw [h]
    rcases isSepChar_elim c hc with h' | h' | h' | h' | h' | h' <;> rw [h'] <;> decide

theorem okText_not_punctRun (t : List Char) (hok : okText t = true)
    (hne : t ≠ []) : isPunctRun t = false := by
  cases t with
  | nil => exact absurd rfl hne
  | cons c rest =>
      rw [okText] at hok
      by_cases h1 : isSepChar c
      · rw [if_pos h1] at hok; exact absurd hok (by simp)
      · rw [if_neg h1] at hok
        rw [isPunctRun, punctRunAux.eq_def]
        dsimp only
        by_cases hc : c = '.'
        · rw [if_pos hc] at hok ⊢
          by_cases hs : startsTwoDots rest
          · rw [if_pos hs] at hok; exact absurd hok (by simp)
          · match rest with
            | [] => rfl
            | [c2] => rfl
            | c2 :: c3 :: r2 =>
                rw [startsTwoDots] at hs
                dsimp only
                rw [if_neg (by simpa using hs)]
        · rw [if_neg hc]
          simp [h1]

theorem mergeGo_punct (cur u : List Char) (rest : List (List Char))
    (hu : SepUnit u) :
    mergeGo cur (u :: rest) = mergeGo (cur ++ u) rest := by
  rw [mergeGo, if_neg (by simpa using hu.ne_nil), if_pos (by simp [hu.punctRun])]

theorem mergeGo_nil_part (cur : List Char) (rest : List (List Char)) :
    mergeGo cur ([] :: rest) = mergeGo cur rest := by
  rw [mergeGo, if_pos rfl]

theorem mergeGo_text (cur t : List Char) (rest : List (List Char))
    (ht : t ≠ []) (hp : isPunctRun t = false) :
    mergeGo cur (t :: rest) = cur :: mergeGo t rest := by
  rw [mergeGo, if_neg (by simpa using ht), if_neg (by simp [hp])]

theorem SenData.val_push (d : SenData) (u : List Char) :
    SenData.val { txt := d.txt, units := d.units ++ [u] } = d.val ++ u := by
  simp [SenData.val]

/-- Core merge lemma: from a text-position remainder (`AltParts parts`)
with a current sentence that already carries at least one unit, `mergeGo`
produces the current sentence (possibly extended by more units) followed
by a chain of complete sentences. -/
theorem merge_chain (parts : List (List Char)) (d : SenData)
    (hA : AltParts parts) (hWF : d.WF) (hun : d.units ≠ []) :
    ∃ d2 ds, mergeGo d.val parts = ((d2 :: ds).map SenData.val) ∧
      d2.txt = d.txt ∧ (∃ us2, d2.units = d.units ++ us2) ∧ d2.WF ∧
      d2.units ≠ [] ∧ Chain false ds := by
  induction hA generalizing d with
  | last t hok =>
      by_cases ht : t = []
      · rw [ht, mergeGo_nil_part, mergeGo]
        exact ⟨d, [], by simp, rfl, ⟨[], by simp⟩, hWF, hun, Chain.nil false⟩
      · rw [mergeGo_text d.val t [] ht (okText_not_punctRun t hok ht), mergeGo]
        refine ⟨d, [{ txt := t, units := [] }], ?_, rfl, ⟨[], by simp⟩, hWF, hun, ?_⟩
        · simp [SenData.val]
        · refine Chain.last false { txt := t, units := [] } ⟨hok, ?_, ?_⟩ (fun _ => ht)
          · intro u hu; simp at hu
          · intro u hu; simp at hu
  | cons t u rest hok hu hcomp hrest ih =>
      by_cases ht : t = []
      · rw [ht, mergeGo_nil_part, mergeGo_punct _ u rest hu]
        have hval : d.val ++ u = SenData.val { txt := d.txt, units := d.units ++ [u] } := by
          rw [SenData.val_push]
        rw [hval]
        have hWF' : SenData.WF { txt := d.txt, units := d.units ++ [u] } := by
          refine ⟨hWF.1, ?_, ?_⟩
          · intro u' hu'
            rcases List.mem_append.mp hu' with h | h
            · exact hWF.2.1 u' h
            · simp at h; rw [h]; exact hu
          · intro u' hu' hu3
            apply hWF.2.2 u' _ hu3
            cases hd : d.units with
            | nil => exact absurd hd hun
            | cons a l =>
                dsimp only at hu'
                rw [hd] at hu'
                simpa using hu'
        obtain ⟨d2, ds, h1, h2, ⟨us2, h3⟩, h4, h5, h6⟩ :=
          ih { txt := d.txt, units := d.units ++ [u] } hWF' (by simp)
        exact ⟨d2, ds, h1, h2, ⟨[u] ++ us2, by rw [h3]; simp⟩, h4, h5, h6⟩
      · rw [mergeGo_text d.val t (u :: rest) ht (okText_not_punctRun t hok ht)]
        rw [mergeGo_punct t u rest hu]
        have hval : t ++ u = SenData.val { txt := t, units := [u] } := by
          simp [SenData.val]
        rw [hval]
        have hWF' : SenData.WF { txt := t, units := [u] } := by
          refine ⟨hok, ?_, ?_⟩
          · intro u' hu'
            simp at hu'
            rw [hu']
            exact hu
          · intro u' hu' hu3
            have hx : u = u' := by simpa using hu'
            show endsWithDot t = false
            exact hcomp (hx.trans hu3)
        obtain ⟨d2, ds, h1, h2, ⟨us2, h3⟩, h4, h5, h6⟩ :=
          ih { txt := t, units := [u] } hWF' (by simp)
        refine ⟨d, d2 :: ds, ?_, rfl, ⟨[], by simp⟩, hWF, hun, ?_⟩
        · rw [h1]; simp
        · cases ds with
          | nil =>
              exact Chain.last false d2 h4 (fun _ => by rw [h2]; exact ht)
          | cons e es =>
              refine Chain.cons false d2 (e :: es) h4 h5
                (fun _ => by rw [h2]; exact ht) (by simp) h6

end Splitter

namespace Splitter

/-! ### Content preservation and the top-level sentence structure -/

theorem mergeGo_flatten (cur : List Char) (parts : List (List Char)) :
    (mergeGo cur parts).flatten = cur ++ parts.flatten := by
  induction parts generalizing cur with
  | nil => simp [mergeGo]
  | cons p ps ih =>
      rw [mergeGo]
      by_cases h1 : p = []
      · rw [if_pos h1, ih, h1]
        simp
      · rw [if_neg h1]
        by_cases h2 : isPunctRun p
        · rw [if_pos h2, ih]
          simp
        · rw [if_neg h2]
          simp [ih]

theorem sentencesOfParts_flatten (parts : List (List Char)) :
    (sentencesOfParts parts).flatten = parts.flatten := by
  induction parts with
  | nil => simp [sentencesOfParts]
  | cons p ps ih =>
      rw [sentencesOfParts]
      by_cases h1 : p = []
      · rw [if_pos h1, ih, h1]
        simp
      · rw [if_neg h1, mergeGo_flatten]
        simp

theorem sentences_flatten (c : List Char) : (sentences c).flatten = c := by
  rw [sentences, sentencesOfParts_flatten, rawParts_flatten]

/-- The sentence list of any content decomposes into well-formed chained
sentence data. -/
theorem sentences_chain (c : List Char) :
    ∃ ds, sentences c = ds.map SenData.val ∧ Chain true ds := by
  rw [sentences]
  have hA := altParts_rawParts c
  revert hA
  generalize rawParts c = P
  intro hA
  cases hA with
  | last t hok =>
      by_cases ht : t = []
      · refine ⟨[], ?_, Chain.nil true⟩
        rw [sentencesOfParts, if_pos ht, sentencesOfParts]
        rfl
      · refine ⟨[{ txt := t, units := [] }], ?_, ?_⟩
        · rw [sentencesOfParts, if_neg ht, mergeGo]
          simp [SenData.val]
        · refine Chain.last true { txt := t, units := [] } ⟨hok, ?_, ?_⟩ ?_
          · intro u hu; simp at hu
          · intro u hu; simp at hu
          · intro h; simp at h
  | cons t u rest hok hu hcomp hrest =>
      by_cases ht : t = []
      · have hWF0 : SenData.WF { txt := ([] : List Char), units := [u] } := by
          refine ⟨rfl, ?_, ?_⟩
          · intro u' hu'; simp at hu'; rw [hu']; exact hu
          · intro u' hu' hu3; rfl
        obtain ⟨d2, ds', h1, h2, h3, h4, h5, h6⟩ :=
          merge_chain rest { txt := ([] : List Char), units := [u] } hrest hWF0 (by simp)
        refine ⟨d2 :: ds', ?_, ?_⟩
        · rw [sentencesOfParts, if_pos ht, sentencesOfParts,
            if_neg (by simpa using hu.ne_nil)]
          have hval : u = SenData.val { txt := ([] : List Char), units := [u] } := by
            simp [SenData.val]
          rw [hval, h1]
        · cases ds' with
          | nil => exact Chain.last true d2 h4 (fun h => by simp at h)
          | cons e es =>
              exact Chain.cons true d2 (e :: es) h4 h5 (fun h => by simp at h)
                (by simp) h6
      · have hWF0 : SenData.WF { txt := t, units := [u] } := by
          refine ⟨hok, ?_, ?_⟩
          · intro u' hu'; simp at hu'; rw [hu']; exact hu
          · intro u' hu' hu3
            have hx : u = u' := by simpa using hu'
            show endsWithDot t = false
            exact hcomp (hx.trans hu3)
        obtain ⟨d2, ds', h1, h2, h3, h4, h5, h6⟩ :=
          merge_chain rest { txt := t, units := [u] } hrest hWF0 (by simp)
        refine ⟨d2 :: ds', ?_, ?_⟩
        · rw [sentencesOfParts, if_neg ht, mergeGo_punct t u rest hu]
          have hval : t ++ u = SenData.val { txt := t, units := [u] } := by
            simp [SenData.val]
          rw [hval, h1]
        · cases ds' with
          | nil => exact Chain.last true d2 h4 (fun h => by simp at h)
          | cons e es =>
              exact Chain.cons true d2 (e :: es) h4 h5 (fun h => by simp at h)
                (by simp) h6

/-! ### Opening parentheses and the paren-free reductions -/

theorem noOpenParen_append (a b : List Char) :
    noOpenParen (a ++ b) = (noOpenParen a && noOpenParen b) := by
  simp [noOpenParen, List.all_append]

theorem noOpenParen_of_mem_flatten (L : List (List Char)) (w : List Char)
    (hw : w ∈ L) (h : noOpenParen L.flatten = true) : noOpenParen w = true := by
  rw [noOpenParen, List.all_eq_true]
  intro c hc
  rw [noOpenParen, List.all_eq_true] at h
  exact h c (List.mem_flatten.mpr ⟨w, hw, hc⟩)

theorem parenMatch_none_of_noOpen (w : List Char) (h : noOpenParen w = true) :
    parenMatch w = none := by
  cases w with
  | nil => rfl
  | cons c rest =>
      rw [noOpenParen, List.all_cons] at h
      simp only [Bool.and_eq_true] at h
      have hc := h.1
      simp at hc
      rw [parenMatch, if_neg hc.1, if_neg hc.2]

theorem cleanSoundGo_id (s : List Char) (h : noOpenParen s = true) :
    ∀ fuel, cleanSoundGo fuel s = s := by
  induction s with
  | nil => intro fuel; cases fuel <;> rfl
  | cons c rest ih =>
      intro fuel
      rw [noOpenParen, List.all_cons] at h
      simp only [Bool.and_eq_true] at h
      have hc := h.1
      simp at hc
      cases fuel with
      | zero => rfl
      | succ n =>
          rw [cleanSoundGo, if_neg hc.1, if_neg hc.2]
          rw [ih (by rw [noOpenParen]; exact h.2) n]

theorem clean_sound_content_id (s : List Char) (h : noOpenParen s = true) :
    clean_sound_content s = s := cleanSoundGo_id s h _

/-! ### Equation lemmas for the sentence loop -/

theorem processSens_nil (e t : String) (acc : List OneSentenceChat)
    (buf : List Char) : processSens e t acc buf [] = acc := rfl

theorem processSens_cons_flush (e t : String) (acc : List OneSentenceChat)
    (buf sen : List Char) (rest : List (List Char))
    (hp : parenMatch sen = none)
    (hcond : (buf ++ sen).length ≥ 6 ∨ rest = [])
    (hstrip : pyStrip (buf ++ sen) ≠ []) :
    processSens e t acc buf (sen :: rest)
      = processSens e t (acc ++ [mkFragment e t (buf ++ sen)]) [] rest := by
  rw [processSens]
  rw [hp]
  dsimp only
  rw [if_pos hcond, if_pos hstrip]

theorem processSens_cons_keep (e t : String) (acc : List OneSentenceChat)
    (buf sen : List Char) (rest : List (List Char))
    (hp : parenMatch sen = none)
    (h : ¬ ((buf ++ sen).length ≥ 6 ∨ rest = []) ∨ pyStrip (buf ++ sen) = []) :
    processSens e t acc buf (sen :: rest)
      = processSens e t acc (buf ++ sen) rest := by
  rw [processSens]
  rw [hp]
  dsimp only
  rcases h with h | h
  · rw [if_neg h]
  · by_cases hcond : (buf ++ sen).length ≥ 6 ∨ rest = []
    · rw [if_pos hcond, if_neg (by simpa using h)]
    · rw [if_neg hcond]

/-- A fragment whose content replays to exactly itself, for any
surrounding accumulator. -/
def FragGood (g : OneSentenceChat) : Prop :=
  ∀ acc : List OneSentenceChat,
    processSens g.expression g.tone acc [] (sentences g.content) = acc ++ [g]

theorem mkFragment_of_strip (e t : String) (buf F : List Char)
    (h : pyStrip buf = F) : mkFragment e t buf = mkFragment e t F := by
  have hF : pyStrip F = F := by rw [← h, pyStrip_idem]
  unfold mkFragment
  rw [h, hF]

/-- The replay lemma: a stripped, non-empty buffer content whose sentence
decomposition never lets an intermediate buffer flush reproduces exactly
one fragment. -/
theorem replay_go (e t : String) (F : List Char) :
    ∀ (sens : List (List Char)) (acc : List OneSentenceChat) (buf : List Char),
      sens ≠ [] →
      (∀ w ∈ sens, parenMatch w = none) →
      buf ++ sens.flatten = F →
      (∀ k, k + 1 < sens.length →
        (buf ++ ((sens.take (k+1)).flatten)).length < 6 ∨
          pyStrip (buf ++ ((sens.take (k+1)).flatten)) = []) →
      pyStrip F = F → F ≠ [] →
      processSens e t acc buf sens = acc ++ [mkFragment e t F] := by
  intro sens
  induction sens with
  | nil => intro acc buf hne; exact absurd rfl hne
  | cons w rest ih =>
      intro acc buf hne hparen hjoin hpref hFs hFne
      by_cases hrest : rest = []
      · subst hrest
        have hbw : buf ++ w = F := by simpa using hjoin
        rw [processSens_cons_flush e t acc buf w [] (hparen w (by simp))
          (Or.inr rfl) (by rw [hbw, hFs]; exact hFne)]
        rw [processSens_nil]
        rw [mkFragment_of_strip e t (buf ++ w) F (by rw [hbw, hFs])]
      · have h0 := hpref 0 (by
          have : rest.length > 0 := List.length_pos.mpr hrest
          simp only [List.length_cons]
          omega)
        have htake : ((w :: rest).take 1).flatten = w := by simp
        rw [htake] at h0
        rw [processSens_cons_keep e t acc buf w rest (hparen w (by simp)) (by
          rcases h0 with h | h
          · left
            intro hcon
            rcases hcon with hcon | hcon
            · omega
            · exact hrest hcon
          · right
            exact h)]
        apply ih acc (buf ++ w) hrest
          (fun w' hw' => hparen w' (by simp [hw']))
          (by rw [List.append_assoc]; simpa using hjoin)
          ?_ hFs hFne
        intro k hk
        have := hpref (k + 1) (by simp only [List.length_cons]; omega)
        simp only [List.take_succ_cons, List.flatten_cons] at this
        simpa [List.append_assoc] using this

end Splitter

namespace Splitter

/-! ### Closure properties of text parts and re-parsing a block -/

theorem okText_tail (c : Char) (rest : List Char)
    (h : okText (c :: rest) = true) : okText rest = true := by
  rw [okText] at h
  by_cases h1 : isSepChar c
  · rw [if_pos h1] at h; exact absurd h (by simp)
  · rw [if_neg h1] at h
    by_cases h2 : c = '.'
    · rw [if_pos h2] at h
      by_cases h3 : startsTwoDots rest
      · rw [if_pos h3] at h; exact absurd h (by simp)
      · rwa [if_neg h3] at h
    · rwa [if_neg h2] at h

theorem okText_dropWhile (p : Char → Bool) (t : List Char)
    (h : okText t = true) : okText (t.dropWhile p) = true := by
  induction t with
  | nil => simpa using h
  | cons c rest ih =>
      rw [List.dropWhile_cons]
      by_cases hp : p c
      · rw [if_pos hp]
        exact ih (okText_tail c rest h)
      · rwa [if_neg hp]

theorem okText_prefix (p q : List Char) (h : okText (p ++ q) = true) :
    okText p = true := by
  induction p with
  | nil => rfl
  | cons c p' ih =>
      rw [List.cons_append, okText] at h
      rw [okText]
      by_cases h1 : isSepChar c
      · rw [if_pos h1] at h; exact absurd h (by simp)
      · rw [if_neg h1] at h ⊢
        by_cases h2 : c = '.'
        · rw [if_pos h2] at h ⊢
          by_cases h3 : startsTwoDots (p' ++ q)
          · rw [if_pos h3] at h; exact absurd h (by simp)
          · rw [if_neg h3] at h
            have h4 : startsTwoDots p' = false := by
              by_cases h5 : startsTwoDots p'
              · exact absurd (startsTwoDots_append p' q h5) h3
              · simpa using h5
            rw [if_neg (by simp [h4])]
            exact ih h
        · rw [if_neg h2] at h ⊢
          exact ih h

theorem okText_backStrip (t : List Char) (h : okText t = true) :
    okText (backStrip t) = true := by
  obtain ⟨q, hq⟩ := backStrip_prefix_self t
  exact okText_prefix (backStrip t) q (by rw [hq]; exact h)

theorem endsWithDot_append (a b : List Char) (hb : b ≠ []) :
    endsWithDot (a ++ b) = endsWithDot b := by
  unfold endsWithDot
  rw [List.getLast?_append_of_ne_nil a hb]

theorem endsWithDot_dropWhile (p : Char → Bool) (t : List Char)
    (h : t.dropWhile p ≠ []) :
    endsWithDot (t.dropWhile p) = endsWithDot t := by
  obtain ⟨a, ha⟩ : t.dropWhile p <:+ t := List.dropWhile_suffix p
  conv_rhs => rw [← ha]
  rw [endsWithDot_append a _ h]

theorem SepUnit_all_not_space (u : List Char) (hu : SepUnit u) :
    u.all (fun c => ¬ pyIsSpace c) = true := by
  rcases hu with h | ⟨c, hc, h⟩
  · rw [h]; decide
  · rw [h]
    rcases isSepChar_elim c hc with h' | h' | h' | h' | h' | h' <;> rw [h'] <;> decide

theorem SepUnit_head_not_space (u : List Char) (hu : SepUnit u) (c : Char)
    (hc : u.head? = some c) : pyIsSpace c = false := by
  have := SepUnit_all_not_space u hu
  rw [List.all_eq_true] at this
  have hmem : c ∈ u := by
    cases u with
    | nil => simp at hc
    | cons a l => simp at hc; rw [← hc]; exact List.mem_cons_self a l
  simpa using this c hmem

theorem SepUnit_getLast_not_space (u : List Char) (hu : SepUnit u) (c : Char)
    (hc : u.getLast? = some c) : pyIsSpace c = false := by
  have := SepUnit_all_not_space u hu
  rw [List.all_eq_true] at this
  have hmem : c ∈ u := List.mem_of_getLast?_eq_some hc
  simpa using this c hmem

theorem backStrip_eq_self (l : List Char)
    (h : ∀ c, l.getLast? = some c → pyIsSpace c = false) : backStrip l = l := by
  cases hrev : l.reverse with
  | nil =>
      have : l = [] := by simpa using congrArg List.reverse hrev
      rw [this]
      rfl
  | cons c rs =>
      have hlast : l.getLast? = some c := by
        rw [← List.head?_reverse, hrev]
        rfl
      unfold backStrip
      rw [hrev, List.dropWhile_cons, if_neg (by simp [h c hlast])]
      rw [← hrev, List.reverse_reverse]

theorem dropWhile_append_head (p : Char → Bool) (a b : List Char)
    (hb : ∀ c, b.head? = some c → p c = false) :
    (a ++ b).dropWhile p = a.dropWhile p ++ b := by
  rw [List.dropWhile_append]
  by_cases h : (a.dropWhile p).isEmpty
  · rw [if_pos h]
    rw [List.isEmpty_iff.mp h]
    cases b with
    | nil => rfl
    | cons c bs =>
        rw [List.dropWhile_cons, if_neg (by simp [hb c rfl])]
        rfl
  · rw [if_neg h]

/-! ### The parts list of a block and its deterministic re-parse -/

def interleaveUnits (us : List (List Char)) (tail : List (List Char)) :
    List (List Char) :=
  us.foldr (fun u acc => [] :: u :: acc) tail

def partsOf : List SenData → List (List Char)
  | [] => [[]]
  | d :: rest => consText d.txt (interleaveUnits d.units (partsOf rest))

theorem interleaveUnits_ne_nil (us : List (List Char))
    (tail : List (List Char)) (ht : tail ≠ []) :
    interleaveUnits us tail ≠ [] := by
  cases us with
  | nil => simpa [interleaveUnits] using ht
  | cons u us' => simp [interleaveUnits]

theorem consText_ne_nil (t : List Char) (parts : List (List Char)) :
    consText t parts ≠ [] := by
  cases parts with
  | nil => simp [consText]
  | cons p ps => simp [consText]

theorem partsOf_ne_nil (bd : List SenData) : partsOf bd ≠ [] := by
  cases bd with
  | nil => simp [partsOf]
  | cons d rest => exact consText_ne_nil _ _

theorem rawParts_units_append (us : List (List Char)) (z : List Char)
    (hus : unitsOK us) :
    rawParts (us.flatten ++ z) = interleaveUnits us (rawParts z) := by
  induction us with
  | nil => simp [interleaveUnits]
  | cons u us' ih =>
      have hu : SepUnit u := hus u (by simp)
      rw [List.flatten_cons, List.append_assoc, rawParts_unit_append u _ hu]
      rw [ih (fun u' hu' => hus u' (by simp [hu']))]
      rfl

theorem noCross_units (t : List Char) (us : List (List Char))
    (hus : unitsOK us)
    (hcomp : ∀ u, us.head? = some u → u = threeDots → endsWithDot t = false)
    (z : List Char) (hz : us = [] → z = []) :
    NoCross t (us.flatten ++ z) := by
  intro hend
  cases us with
  | nil =>
      rw [hz rfl]
      simp
  | cons u us' =>
      have hu : SepUnit u := hus u (by simp)
      have hune : u ≠ [] := hu.ne_nil
      obtain ⟨c0, u', hu0⟩ := List.exists_cons_of_ne_nil hune
      have hhead : ((u :: us').flatten ++ z).head? = some c0 := by
        rw [List.flatten_cons, hu0]
        simp
      rw [hhead]
      intro hcon
      have hc0 : c0 = '.' := by simpa using hcon
      rcases hu with h3 | ⟨cs, hcs, h3⟩
      · have := hcomp u rfl h3
        rw [this] at hend
        exact absurd hend (by simp)
      · rw [h3] at hu0
        have h4 : c0 = cs ∧ u' = [] := by simpa using hu0.symm
        rw [← h4.1, hc0] at hcs
        exact absurd hcs (by decide)

/-- Parsing the flattened block reproduces exactly its parts list. -/
theorem partsOf_parse (bd : List SenData) (b : Bool) (h : Chain b bd) :
    rawParts ((bd.map SenData.val).flatten) = partsOf bd := by
  induction h with
  | nil b => simp [partsOf, rawParts]
  | last b d hWF htxt =>
      simp only [List.map_cons, List.map_nil, List.flatten_cons,
        List.flatten_nil, List.append_nil, partsOf]
      rw [SenData.val]
      have hnc : NoCross d.txt (d.units.flatten ++ []) :=
        noCross_units d.txt d.units hWF.2.1 hWF.2.2 [] (fun _ => rfl)
      rw [show d.txt ++ d.units.flatten = d.txt ++ (d.units.flatten ++ []) by simp]
      rw [rawParts_text_append d.txt _ hWF.1 hnc]
      rw [rawParts_units_append d.units [] hWF.2.1]
      rfl
  | cons b d ds hWF hun htxt hne hch ih =>
      simp only [List.map_cons, List.flatten_cons, partsOf]
      rw [SenData.val, List.append_assoc]
      have hnc : NoCross d.txt (d.units.flatten ++ (ds.map SenData.val).flatten) :=
        noCross_units d.txt d.units hWF.2.1 hWF.2.2 _ (fun hu0 => absurd hu0 hun)
      rw [rawParts_text_append d.txt _ hWF.1 hnc]
      rw [rawParts_units_append d.units _ hWF.2.1]
      rw [ih]

theorem mergeGo_interleave (us : List (List Char)) (tail : List (List Char))
    (cur : List Char) (hus : unitsOK us) :
    mergeGo cur (interleaveUnits us tail) = mergeGo (cur ++ us.flatten) tail := by
  induction us generalizing cur with
  | nil => simp [interleaveUnits]
  | cons u us' ih =>
      have hu : SepUnit u := hus u (by simp)
      show mergeGo cur ([] :: u :: interleaveUnits us' tail) = _
      rw [mergeGo_nil_part, mergeGo_punct cur u _ hu]
      rw [ih (cur ++ u) (fun u' hu' => hus u' (by simp [hu']))]
      simp

theorem chain_txt_ne_nil (b : Bool) (ds : List SenData) (h : Chain b ds) :
    b = false → ∀ d ∈ ds, d.txt ≠ [] := by
  induction h with
  | nil b => intro _ d hd; simp at hd
  | last b d' hWF htxt =>
      intro hb d hd
      simp at hd
      rw [hd]
      exact htxt hb
  | cons b d' ds' hWF hun htxt hne hch ih =>
      intro hb d hd
      rcases List.mem_cons.mp hd with h1 | h1
      · rw [h1]; exact htxt hb
      · exact ih rfl d h1

theorem chain_false_txt_ne_nil (ds : List SenData) (h : Chain false ds) :
    ∀ d ∈ ds, d.txt ≠ [] := chain_txt_ne_nil false ds h rfl

theorem head?_mem {α : Type} (l : List α) (a : α) (h : l.head? = some a) :
    a ∈ l := by
  cases l with
  | nil => simp at h
  | cons b bs => simp at h; rw [← h]; exact List.mem_cons_self b bs

theorem mergeGo_partsOf (b : Bool) (rest : List SenData) (cur : List Char)
    (h : Chain b rest)
    (hfirst : ∀ d, rest.head? = some d → d.txt ≠ []) :
    mergeGo cur (partsOf rest) = cur :: rest.map SenData.val := by
  induction h generalizing cur with
  | nil b =>
      show mergeGo cur [[]] = [cur]
      rw [mergeGo_nil_part, mergeGo]
  | last b d hWF htxt =>
      have htne : d.txt ≠ [] := hfirst d rfl
      show mergeGo cur (consText d.txt (interleaveUnits d.units (partsOf []))) = _
      cases hu : d.units with
      | nil =>
          show mergeGo cur (consText d.txt (interleaveUnits [] [[]])) = _
          show mergeGo cur [d.txt ++ []] = _
          rw [List.append_nil]
          rw [mergeGo_text cur d.txt [] htne (okText_not_punctRun d.txt hWF.1 htne)]
          rw [mergeGo]
          simp [SenData.val, hu]
      | cons u us =>
          show mergeGo cur ((d.txt ++ []) :: u :: interleaveUnits us [[]]) = _
          rw [List.append_nil]
          rw [mergeGo_text cur d.txt _ htne (okText_not_punctRun d.txt hWF.1 htne)]
          rw [mergeGo_punct d.txt u _ (hWF.2.1 u (by rw [hu]; simp))]
          rw [mergeGo_interleave us [[]] (d.txt ++ u)
            (fun u' hu' => hWF.2.1 u' (by rw [hu]; simp [hu']))]
          rw [mergeGo_nil_part, mergeGo]
          simp [SenData.val, hu]
  | cons b d ds' hWF hun htxt hne hch ih =>
      have htne : d.txt ≠ [] := hfirst d rfl
      have hrest : ∀ d', ds'.head? = some d' → d'.txt ≠ [] := fun d' hd' =>
        chain_false_txt_ne_nil ds' hch d' (head?_mem ds' d' hd')
      obtain ⟨u, us, hu⟩ := List.exists_cons_of_ne_nil hun
      show mergeGo cur (consText d.txt (interleaveUnits d.units (partsOf ds'))) = _
      rw [hu]
      show mergeGo cur ((d.txt ++ []) :: u :: interleaveUnits us (partsOf ds')) = _
      rw [List.append_nil]
      rw [mergeGo_text cur d.txt _ htne (okText_not_punctRun d.txt hWF.1 htne)]
      rw [mergeGo_punct d.txt u _ (hWF.2.1 u (by rw [hu]; simp))]
      rw [mergeGo_interleave us (partsOf ds') (d.txt ++ u)
        (fun u' hu' => hWF.2.1 u' (by rw [hu]; simp [hu']))]
      rw [ih _ hrest]
      simp [SenData.val, hu]

/-- Merging the parts list of a block reproduces exactly its sentences. -/
theorem sentencesOfPartsOf (bd : List SenData) (b : Bool) (h : Chain b bd)
    (hfirst : ∀ d, bd.head? = some d → d.txt = [] → d.units ≠ []) :
    sentencesOfParts (partsOf bd) = bd.map SenData.val := by
  cases h with
  | nil b =>
      show sentencesOfParts [[]] = []
      rw [sentencesOfParts, if_pos rfl, sentencesOfParts]
  | last b d hWF htxt =>
      have hrest : Chain false ([] : List SenData) := Chain.nil false
      by_cases ht : d.txt = []
      · have hun : d.units ≠ [] := hfirst d rfl ht
        obtain ⟨u, us, hu⟩ := List.exists_cons_of_ne_nil hun
        show sentencesOfParts (consText d.txt (interleaveUnits d.units (partsOf []))) = _
        rw [hu, ht]
        show sentencesOfParts (([] ++ []) :: u :: interleaveUnits us [[]]) = _
        rw [List.append_nil]
        rw [sentencesOfParts, if_pos rfl]
        rw [sentencesOfParts, if_neg (by
          simpa using (hWF.2.1 u (by rw [hu]; simp)).ne_nil)]
        rw [mergeGo_interleave us [[]] u
          (fun u' hu' => hWF.2.1 u' (by rw [hu]; simp [hu']))]
        rw [mergeGo_nil_part, mergeGo]
        simp [SenData.val, hu, ht]
      · show sentencesOfParts (consText d.txt (interleaveUnits d.units (partsOf []))) = _
        cases hu : d.units with
        | nil =>
            show sentencesOfParts [d.txt ++ []] = _
            rw [List.append_nil]
            rw [sentencesOfParts, if_neg ht, mergeGo]
            simp [SenData.val, hu]
        | cons u us =>
            show sentencesOfParts ((d.txt ++ []) :: u :: interleaveUnits us [[]]) = _
            rw [List.append_nil]
            rw [sentencesOfParts, if_neg ht]
            rw [mergeGo_punct d.txt u _ (hWF.2.1 u (by rw [hu]; simp))]
            rw [mergeGo_interleave us [[]] (d.txt ++ u)
              (fun u' hu' => hWF.2.1 u' (by rw [hu]; simp [hu']))]
            rw [mergeGo_nil_part, mergeGo]
            simp [SenData.val, hu]
  | cons b d ds' hWF hun htxt hne hch =>
      obtain ⟨u, us, hu⟩ := List.exists_cons_of_ne_nil hun
      by_cases ht : d.txt = []
      · show sentencesOfParts (consText d.txt (interleaveUnits d.units (partsOf ds'))) = _
        rw [hu, ht]
        show sentencesOfParts (([] ++ []) :: u :: interleaveUnits us (partsOf ds')) = _
        rw [List.append_nil]
        rw [sentencesOfParts, if_pos rfl]
        rw [sentencesOfParts, if_neg (by
          simpa using (hWF.2.1 u (by rw [hu]; simp)).ne_nil)]
        rw [mergeGo_interleave us (partsOf ds') u
          (fun u' hu' => hWF.2.1 u' (by rw [hu]; simp [hu']))]
        rw [mergeGo_partsOf false ds' _ hch (fun d' hd' =>
          chain_false_txt_ne_nil ds' hch d' (head?_mem ds' d' hd'))]
        simp [SenData.val, hu, ht]
      · show sentencesOfParts (consText d.txt (interleaveUnits d.units (partsOf ds'))) = _
        rw [hu]
        show sentencesOfParts ((d.txt ++ []) :: u :: interleaveUnits us (partsOf ds')) = _
        rw [List.append_nil]
        rw [sentencesOfParts, if_neg ht]
        rw [mergeGo_punct d.txt u _ (hWF.2.1 u (by rw [hu]; simp))]
        rw [mergeGo_interleave us (partsOf ds') (d.txt ++ u)
          (fun u' hu' => hWF.2.1 u' (by rw [hu]; simp [hu']))]
        rw [mergeGo_partsOf false ds' _ hch (fun d' hd' =>
          chain_false_txt_ne_nil ds' hch d' (head?_mem ds' d' hd'))]
        simp [SenData.val, hu]

/-- A well-formed block's flattened value re-splits into exactly its
sentences. -/
theorem sentences_of_block (bd : List SenData) (b : Bool) (h : Chain b bd)
    (hfirst : ∀ d, bd.head? = some d → d.txt = [] → d.units ≠ []) :
    sentences ((bd.map SenData.val).flatten) = bd.map SenData.val := by
  rw [sentences, partsOf_parse bd b h, sentencesOfPartsOf bd b h hfirst]

end Splitter

namespace Splitter

/-! ### Structural facts about chains -/

theorem chain_weaken (b : Bool) (ds : List SenData) (h : Chain b ds) :
    Chain true ds := by
  cases h with
  | nil => exact Chain.nil true
  | last b d hWF htxt => exact Chain.last true d hWF (fun hc => by cases hc)
  | cons b d ds hWF hun htxt hne hch =>
      exact Chain.cons true d ds hWF hun (fun hc => by cases hc) hne hch

theorem chain_suffix_aux (b : Bool) (l : List SenData) (h : Chain b l) :
    ∀ xs ys, l = xs ++ ys → Chain true ys := by
  induction h with
  | nil b =>
      intro xs ys hl
      have hy : xs = [] ∧ ys = [] := by simpa using hl.symm
      rw [hy.2]
      exact Chain.nil true
  | last b d hWF htxt =>
      intro xs ys hl
      cases xs with
      | nil =>
          simp at hl
          rw [← hl]
          exact Chain.last true d hWF (fun hc => by cases hc)
      | cons x xs' =>
          rw [List.cons_append] at hl
          injection hl with h1 h2
          have hy : xs' = [] ∧ ys = [] := by simpa using h2.symm
          rw [hy.2]
          exact Chain.nil true
  | cons b d ds hWF hun htxt hne hch ih =>
      intro xs ys hl
      cases xs with
      | nil =>
          simp at hl
          rw [← hl]
          exact Chain.cons true d ds hWF hun (fun hc => by cases hc) hne hch
      | cons x xs' =>
          rw [List.cons_append] at hl
          injection hl with h1 h2
          exact ih xs' ys h2

theorem chain_suffix (b : Bool) (xs ys : List SenData)
    (h : Chain b (xs ++ ys)) : Chain true ys :=
  chain_suffix_aux b (xs ++ ys) h xs ys rfl

theorem chain_prefix_aux (b : Bool) (l : List SenData) (h : Chain b l) :
    ∀ xs ys, l = xs ++ ys → Chain b xs := by
  induction h with
  | nil b =>
      intro xs ys hl
      have hx : xs = [] ∧ ys = [] := by simpa using hl.symm
      rw [hx.1]
      exact Chain.nil b
  | last b d hWF htxt =>
      intro xs ys hl
      cases xs with
      | nil => exact Chain.nil b
      | cons x xs' =>
          rw [List.cons_append] at hl
          injection hl with h1 h2
          have hx : xs' = [] ∧ ys = [] := by simpa using h2.symm
          rw [hx.1, ← h1]
          exact Chain.last b d hWF htxt
  | cons b d ds hWF hun htxt hne hch ih =>
      intro xs ys hl
      cases xs with
      | nil => exact Chain.nil b
      | cons x xs' =>
          rw [List.cons_append] at hl
          injection hl with h1 h2
          by_cases hx : xs' = []
          · rw [hx, ← h1]
            exact Chain.last b d hWF htxt
          · rw [← h1]
            exact Chain.cons b d xs' hWF hun htxt hx (ih xs' ys h2)

theorem chain_head_WF (b : Bool) (bd : List SenData) (h : Chain b bd)
    (d0 : SenData) (hd : bd.head? = some d0) : d0.WF := by
  cases h with
  | nil => simp at hd
  | last b d hWF htxt =>
      simp at hd
      rw [← hd]
      exact hWF
  | cons b d ds hWF hun htxt hne hch =>
      simp at hd
      rw [← hd]
      exact hWF

theorem chain_first_units (b : Bool) (bd : List SenData) (h : Chain b bd)
    (d0 : SenData) (hd : bd.head? = some d0) (hu : d0.units = []) :
    bd = [d0] := by
  cases h with
  | nil => simp at hd
  | last b d hWF htxt =>
      simp at hd
      rw [hd]
  | cons b d ds hWF hun htxt hne hch =>
      simp at hd
      rw [hd] at hun
      exact absurd hu hun

/-! ### Stripping a block: front strip affects only the first text, back
strip affects only the last element (possibly dropping it) -/

def frontStripBlock : List SenData → List SenData
  | [] => []
  | d :: rest => { txt := d.txt.dropWhile pyIsSpace, units := d.units } :: rest

def backStripBlock : List SenData → List SenData
  | [] => []
  | d :: rest =>
    match rest with
    | [] =>
      if d.units = [] then
        if backStrip d.txt = [] then []
        else [{ txt := backStrip d.txt, units := [] }]
      else [d]
    | d2 :: rest2 => d :: backStripBlock (d2 :: rest2)

def stripBlock (bd : List SenData) : List SenData :=
  backStripBlock (frontStripBlock bd)

theorem backStripBlock_nil : backStripBlock [] = [] := rfl

theorem backStripBlock_single (d : SenData) :
    backStripBlock [d]
      = if d.units = [] then
          (if backStrip d.txt = [] then []
           else [{ txt := backStrip d.txt, units := [] }])
        else [d] := rfl

theorem backStripBlock_cons2 (d d2 : SenData) (rest : List SenData) :
    backStripBlock (d :: d2 :: rest) = d :: backStripBlock (d2 :: rest) := rfl

theorem backStrip_val_eq (d : SenData) (hWF : d.WF) (hun : d.units ≠ []) :
    backStrip (SenData.val d) = SenData.val d := by
  apply backStrip_eq_self
  intro c hc
  have hfne : d.units.flatten ≠ [] := by
    obtain ⟨u, us, hu⟩ := List.exists_cons_of_ne_nil hun
    rw [hu, List.flatten_cons]
    have h1 : u ≠ [] := (hWF.2.1 u (by rw [hu]; simp)).ne_nil
    intro hcon
    simp at hcon
    exact h1 hcon.1
  rw [SenData.val, List.getLast?_append_of_ne_nil d.txt hfne] at hc
  obtain ⟨u2, hu2, hcu⟩ := List.mem_flatten.mp (List.mem_of_getLast?_eq_some hc)
  have hall := SepUnit_all_not_space u2 (hWF.2.1 u2 hu2)
  rw [List.all_eq_true] at hall
  simpa using hall c hcu

theorem frontStripBlock_flatten (b : Bool) (bd : List SenData)
    (h : Chain b bd) :
    ((frontStripBlock bd).map SenData.val).flatten
      = ((bd.map SenData.val).flatten).dropWhile pyIsSpace := by
  cases bd with
  | nil => simp [frontStripBlock]
  | cons d rest =>
      have hWF : d.WF := chain_head_WF b (d :: rest) h d rfl
      have hb : ∀ c,
          (d.units.flatten ++ ((rest.map SenData.val).flatten)).head? = some c →
          pyIsSpace c = false := by
        intro c hc
        cases hu : d.units with
        | nil =>
            have hbd : d :: rest = [d] :=
              chain_first_units b (d :: rest) h d rfl hu
            have hrest : rest = [] := by simpa using hbd
            rw [hu, hrest] at hc
            simp at hc
        | cons u us =>
            have hsu : SepUnit u := hWF.2.1 u (by rw [hu]; simp)
            obtain ⟨c0, u2, hu0⟩ := List.exists_cons_of_ne_nil hsu.ne_nil
            rw [hu, List.flatten_cons, hu0] at hc
            simp at hc
            rw [← hc]
            exact SepUnit_head_not_space u hsu c0 (by rw [hu0]; rfl)
      show ((d.txt.dropWhile pyIsSpace ++ d.units.flatten)
          :: (rest.map SenData.val)).flatten = _
      rw [List.flatten_cons]
      simp only [List.map_cons, List.flatten_cons, SenData.val]
      rw [List.append_assoc, List.append_assoc]
      rw [dropWhile_append_head pyIsSpace d.txt _ hb]

theorem frontStripBlock_chain (bd : List SenData) (h : Chain true bd) :
    Chain true (frontStripBlock bd) := by
  cases h with
  | nil => exact Chain.nil true
  | last b d hWF htxt =>
      refine Chain.last true _ ⟨okText_dropWhile pyIsSpace d.txt hWF.1,
        hWF.2.1, ?_⟩ (fun hc => by cases hc)
      intro u hu h3
      by_cases hd : d.txt.dropWhile pyIsSpace = []
      · show endsWithDot (d.txt.dropWhile pyIsSpace) = false
        rw [hd]
        rfl
      · show endsWithDot (d.txt.dropWhile pyIsSpace) = false
        rw [endsWithDot_dropWhile pyIsSpace d.txt hd]
        exact hWF.2.2 u hu h3
  | cons b d ds hWF hun htxt hne hch =>
      refine Chain.cons true _ ds ⟨okText_dropWhile pyIsSpace d.txt hWF.1,
        hWF.2.1, ?_⟩ hun (fun hc => by cases hc) hne hch
      intro u hu h3
      by_cases hd : d.txt.dropWhile pyIsSpace = []
      · show endsWithDot (d.txt.dropWhile pyIsSpace) = false
        rw [hd]
        rfl
      · show endsWithDot (d.txt.dropWhile pyIsSpace) = false
        rw [endsWithDot_dropWhile pyIsSpace d.txt hd]
        exact hWF.2.2 u hu h3

theorem frontStripBlock_take (bd : List SenData) (k : Nat) :
    (frontStripBlock bd).take (k+1) = frontStripBlock (bd.take (k+1)) := by
  cases bd with
  | nil => rfl
  | cons d rest => rfl

theorem frontStripBlock_length (bd : List SenData) :
    (frontStripBlock bd).length = bd.length := by
  cases bd with
  | nil => rfl
  | cons d rest => rfl

theorem backStripBlock_flatten (b : Bool) (bd : List SenData)
    (h : Chain b bd) :
    ((backStripBlock bd).map SenData.val).flatten
      = backStrip ((bd.map SenData.val).flatten) := by
  induction h with
  | nil b =>
      show (([] : List SenData).map SenData.val).flatten = backStrip []
      simp [backStrip]
  | last b d hWF htxt =>
      rw [backStripBlock_single]
      by_cases hu : d.units = []
      · rw [if_pos hu]
        by_cases hbs : backStrip d.txt = []
        · rw [if_pos hbs]
          simp [SenData.val, hu, hbs]
        · rw [if_neg hbs]
          simp [SenData.val, hu]
      · rw [if_neg hu]
        simp only [List.map_cons, List.map_nil, List.flatten_cons,
          List.flatten_nil, List.append_nil]
        exact (backStrip_val_eq d hWF hu).symm
  | cons b d ds hWF hun htxt hne hch ih =>
      obtain ⟨d2, rest2, hds⟩ := List.exists_cons_of_ne_nil hne
      subst hds
      rw [backStripBlock_cons2]
      simp only [List.map_cons, List.flatten_cons] at ih ⊢
      rw [ih]
      rw [backStrip_append (SenData.val d) _]
      by_cases hbs :
          backStrip (d2.val ++ ((rest2.map SenData.val)).flatten) = []
      · rw [if_pos hbs, hbs, List.append_nil]
        exact (backStrip_val_eq d hWF hun).symm
      · rw [if_neg hbs]

theorem backStripBlock_chain (b : Bool) (bd : List SenData)
    (h : Chain b bd) : Chain b (backStripBlock bd) := by
  induction h with
  | nil b => exact Chain.nil b
  | last b d hWF htxt =>
      rw [backStripBlock_single]
      by_cases hu : d.units = []
      · rw [if_pos hu]
        by_cases hbs : backStrip d.txt = []
        · rw [if_pos hbs]
          exact Chain.nil b
        · rw [if_neg hbs]
          refine Chain.last b _ ⟨okText_backStrip d.txt hWF.1, ?_, ?_⟩ ?_
          · intro u hu2
            simp at hu2
          · intro u hu2
            simp at hu2
          · intro _
            exact hbs
      · rw [if_neg hu]
        exact Chain.last b d hWF htxt
  | cons b d ds hWF hun htxt hne hch ih =>
      obtain ⟨d2, rest2, hds⟩ := List.exists_cons_of_ne_nil hne
      subst hds
      rw [backStripBlock_cons2]
      cases hB : backStripBlock (d2 :: rest2) with
      | nil => exact Chain.last b d hWF htxt
      | cons x xs =>
          refine Chain.cons b d (x :: xs) hWF hun htxt (by simp) ?_
          rw [← hB]
          exact ih

theorem backStripBlock_take (bd : List SenData) :
    ∀ n, n < (backStripBlock bd).length →
      (backStripBlock bd).take n = bd.take n := by
  induction bd with
  | nil =>
      intro n hn
      rw [backStripBlock_nil] at hn
      simp at hn
  | cons d rest ih =>
      cases rest with
      | nil =>
          intro n hn
          rw [backStripBlock_single] at hn ⊢
          by_cases hu : d.units = []
          · rw [if_pos hu] at hn ⊢
            by_cases hbs : backStrip d.txt = []
            · rw [if_pos hbs] at hn
              simp at hn
            · rw [if_neg hbs] at hn ⊢
              have h0 : n = 0 := Nat.lt_one_iff.mp (by simpa using hn)
              rw [h0]
              simp
          · rw [if_neg hu] at hn ⊢
      | cons d2 rest2 =>
          intro n hn
          rw [backStripBlock_cons2] at hn ⊢
          cases n with
          | zero => simp
          | succ k =>
              rw [List.take_succ_cons, List.take_succ_cons]
              rw [ih k (by simpa using hn)]

theorem backStripBlock_length_le (bd : List SenData) :
    (backStripBlock bd).length ≤ bd.length := by
  induction bd with
  | nil => simp [backStripBlock_nil]
  | cons d rest ih =>
      cases rest with
      | nil =>
          rw [backStripBlock_single]
          by_cases hu : d.units = []
          · rw [if_pos hu]
            by_cases hbs : backStrip d.txt = []
            · rw [if_pos hbs]
              simp
            · rw [if_neg hbs]
              simp
          · rw [if_neg hu]
      | cons d2 rest2 =>
          rw [backStripBlock_cons2]
          simpa using ih

theorem stripBlock_flatten (bd : List SenData) (h : Chain true bd) :
    ((stripBlock bd).map SenData.val).flatten
      = pyStrip ((bd.map SenData.val).flatten) := by
  rw [stripBlock,
    backStripBlock_flatten true _ (frontStripBlock_chain bd h),
    frontStripBlock_flatten true bd h,
    pyStrip_eq_backStrip_dropWhile]

theorem stripBlock_chain (bd : List SenData) (h : Chain true bd) :
    Chain true (stripBlock bd) :=
  backStripBlock_chain true _ (frontStripBlock_chain bd h)

theorem stripBlock_length_le (bd : List SenData) :
    (stripBlock bd).length ≤ bd.length := by
  rw [stripBlock]
  calc (backStripBlock (frontStripBlock bd)).length
      ≤ (frontStripBlock bd).length := backStripBlock_length_le _
    _ = bd.length := frontStripBlock_length bd

theorem stripBlock_first (bd : List SenData) (h : Chain true bd) :
    ∀ d0, (stripBlock bd).head? = some d0 → d0.txt = [] → d0.units ≠ [] := by
  intro d0 hd0 htxt0
  cases bd with
  | nil =>
      have : stripBlock ([] : List SenData) = [] := rfl
      rw [this] at hd0
      simp at hd0
  | cons d rest =>
      have hfsb : stripBlock (d :: rest)
          = backStripBlock
              ({ txt := d.txt.dropWhile pyIsSpace, units := d.units } :: rest) :=
        rfl
      rw [hfsb] at hd0
      cases rest with
      | nil =>
          rw [backStripBlock_single] at hd0
          dsimp only at hd0
          by_cases hu : d.units = []
          · rw [if_pos hu] at hd0
            by_cases hbs : backStrip (d.txt.dropWhile pyIsSpace) = []
            · rw [if_pos hbs] at hd0
              simp at hd0
            · rw [if_neg hbs] at hd0
              simp at hd0
              rw [← hd0] at htxt0
              exact absurd htxt0 hbs
          · rw [if_neg hu] at hd0
            simp at hd0
            rw [← hd0]
            exact hu
      | cons d2 rest2 =>
          rw [backStripBlock_cons2] at hd0
          simp at hd0
          cases h with
          | cons b d3 ds3 hWF hun htxt hne hch =>
              rw [← hd0]
              exact hun

theorem pyStrip_dropWhile (s : List Char) :
    pyStrip (s.dropWhile pyIsSpace) = pyStrip s := by
  rw [pyStrip_eq_backStrip_dropWhile, pyStrip_eq_backStrip_dropWhile,
    List.dropWhile_idempotent]

theorem stripBlock_take_flatten (bd : List SenData) (h : Chain true bd)
    (k : Nat) (hk : k + 1 < (stripBlock bd).length) :
    (((stripBlock bd).take (k+1)).map SenData.val).flatten
      = (((bd.take (k+1)).map SenData.val).flatten).dropWhile pyIsSpace := by
  rw [stripBlock] at hk ⊢
  rw [backStripBlock_take (frontStripBlock bd) (k+1) hk]
  rw [frontStripBlock_take bd k]
  have hpre : Chain true (bd.take (k+1)) :=
    chain_prefix_aux true bd h (bd.take (k+1)) (bd.drop (k+1))
      (List.take_append_drop (k+1) bd).symm
  exact frontStripBlock_flatten true _ hpre

end Splitter

namespace Splitter

/-! ### Every fragment flushed from a paren-free block replays to itself -/

theorem noOpenParen_flatten (L : List (List Char))
    (h : ∀ w ∈ L, noOpenParen w = true) : noOpenParen L.flatten = true := by
  induction L with
  | nil => rfl
  | cons w ws ih =>
      rw [List.flatten_cons, noOpenParen_append]
      simp only [Bool.and_eq_true]
      exact ⟨h w (by simp), ih (fun w2 hw2 => h w2 (by simp [hw2]))⟩

theorem noOpenParen_sublist (l m : List Char) (hs : List.Sublist m l)
    (h : noOpenParen l = true) : noOpenParen m = true := by
  rw [noOpenParen, List.all_eq_true] at h ⊢
  intro c hc
  exact h c (hs.subset hc)

theorem pyStrip_sublist (s : List Char) : List.Sublist (pyStrip s) s := by
  rw [pyStrip_eq_backStrip_dropWhile]
  exact ((backStrip_prefix_self _).sublist).trans
    ((List.dropWhile_suffix pyIsSpace).sublist)

theorem flush_good (e t : String) (bd : List SenData) (hch : Chain true bd)
    (hnop : ∀ d ∈ bd, noOpenParen (SenData.val d) = true)
    (hpref : ∀ k, k + 1 < bd.length →
        (((bd.take (k+1)).map SenData.val).flatten).length < 6 ∨
        pyStrip (((bd.take (k+1)).map SenData.val).flatten) = [])
    (hne : pyStrip ((bd.map SenData.val).flatten) ≠ []) :
    FragGood (mkFragment e t ((bd.map SenData.val).flatten)) := by
  intro acc
  have hS1 := stripBlock_flatten bd hch
  have hsen : sentences (pyStrip ((bd.map SenData.val).flatten))
      = (stripBlock bd).map SenData.val := by
    rw [← hS1]
    exact sentences_of_block (stripBlock bd) true (stripBlock_chain bd hch)
      (stripBlock_first bd hch)
  have hnopB : noOpenParen ((bd.map SenData.val).flatten) = true := by
    apply noOpenParen_flatten
    intro w hw
    obtain ⟨d, hd, hdw⟩ := List.mem_map.mp hw
    rw [← hdw]
    exact hnop d hd
  have hnopF : noOpenParen (pyStrip ((bd.map SenData.val).flatten)) = true :=
    noOpenParen_sublist _ _ (pyStrip_sublist _) hnopB
  show processSens e t acc []
      (sentences (pyStrip ((bd.map SenData.val).flatten)))
      = acc ++ [mkFragment e t ((bd.map SenData.val).flatten)]
  rw [hsen]
  rw [mkFragment_of_strip e t ((bd.map SenData.val).flatten)
    (pyStrip ((bd.map SenData.val).flatten)) rfl]
  apply replay_go e t (pyStrip ((bd.map SenData.val).flatten))
    ((stripBlock bd).map SenData.val) acc []
  · intro hcon
    apply hne
    rw [← hS1, hcon]
    rfl
  · intro w hw
    exact parenMatch_none_of_noOpen w
      (noOpenParen_of_mem_flatten _ w hw (by rw [hS1]; exact hnopF))
  · rw [List.nil_append, hS1]
  · intro k hk
    rw [List.length_map] at hk
    rw [List.nil_append, ← List.map_take]
    rw [stripBlock_take_flatten bd hch k hk]
    have hk2 : k + 1 < bd.length :=
      lt_of_lt_of_le hk (stripBlock_length_le bd)
    rcases hpref k hk2 with h | h
    · left
      have := length_dropWhile_le pyIsSpace
        (((bd.take (k+1)).map SenData.val).flatten)
      omega
    · right
      rw [pyStrip_dropWhile]
      exact h
  · exact pyStrip_idem _
  · exact hne

/-- The invariant run of the sentence loop over the remaining chained
sentences: every fragment it appends to the accumulator replays to
itself. -/
theorem processSens_all_good (e t : String) :
    ∀ (rem pbd : List SenData) (acc : List OneSentenceChat),
      Chain true (pbd ++ rem) →
      (∀ d ∈ pbd ++ rem, noOpenParen (SenData.val d) = true) →
      (∀ k, k + 1 ≤ pbd.length →
          ((((pbd.take (k+1)).map SenData.val).flatten).length < 6 ∨
           pyStrip (((pbd.take (k+1)).map SenData.val).flatten) = [])) →
      ∃ G, processSens e t acc ((pbd.map SenData.val).flatten)
              (rem.map SenData.val) = acc ++ G ∧ ∀ g ∈ G, FragGood g := by
  intro rem
  induction rem with
  | nil =>
      intro pbd acc hch hnop hpref
      refine ⟨[], ?_, by simp⟩
      rw [List.map_nil, processSens_nil, List.append_nil]
  | cons d rem2 ih =>
      intro pbd acc hch hnop hpref
      have hassoc : pbd ++ [d] ++ rem2 = pbd ++ d :: rem2 := by simp
      have hparen : parenMatch (SenData.val d) = none :=
        parenMatch_none_of_noOpen _ (hnop d (by simp))
      have hbuf2 : ((pbd.map SenData.val).flatten) ++ SenData.val d
          = (((pbd ++ [d]).map SenData.val).flatten) := by simp
      have hch1 : Chain true ((pbd ++ [d]) ++ rem2) := by
        rw [hassoc]; exact hch
      have hnop1 : ∀ d2 ∈ (pbd ++ [d]) ++ rem2,
          noOpenParen (SenData.val d2) = true := by
        intro d2 hd2
        apply hnop d2
        rw [← hassoc]
        exact hd2
      rw [List.map_cons]
      by_cases hstrip : pyStrip ((((pbd ++ [d]).map SenData.val).flatten)) = []
      · rw [processSens_cons_keep e t acc ((pbd.map SenData.val).flatten)
          (SenData.val d) (rem2.map SenData.val) hparen
          (Or.inr (by rw [hbuf2]; exact hstrip))]
        rw [hbuf2]
        apply ih (pbd ++ [d]) acc hch1 hnop1
        intro k hk
        by_cases hkle : k + 1 ≤ pbd.length
        · rw [List.take_append_of_le_length hkle]
          exact hpref k hkle
        · have htk : (pbd ++ [d]).take (k+1) = pbd ++ [d] :=
            List.take_of_length_le (by
              simp only [List.length_append, List.length_cons,
                List.length_nil]
              omega)
          rw [htk]
          exact Or.inr hstrip
      · by_cases hcond : ((((pbd.map SenData.val).flatten)
              ++ SenData.val d).length ≥ 6)
            ∨ (rem2.map SenData.val) = []
        · rw [processSens_cons_flush e t acc ((pbd.map SenData.val).flatten)
            (SenData.val d) (rem2.map SenData.val) hparen hcond
            (by rw [hbuf2]; exact hstrip)]
          have hch2 : Chain true (([] : List SenData) ++ rem2) :=
            chain_suffix true (pbd ++ [d]) rem2 hch1
          obtain ⟨G2, hG2, hGood2⟩ := ih []
            (acc ++ [mkFragment e t
              ((((pbd ++ [d]).map SenData.val).flatten))]) hch2
            (fun d2 hd2 => hnop1 d2 (by
              simp only [List.nil_append] at hd2
              simp [hd2]))
            (fun k hk => by simp at hk)
          refine ⟨mkFragment e t ((((pbd ++ [d]).map SenData.val).flatten))
            :: G2, ?_, ?_⟩
          · rw [hbuf2]
            rw [show (([] : List SenData).map SenData.val).flatten
              = ([] : List Char) from rfl] at hG2
            rw [hG2]
            simp
          · intro g hg
            rcases List.mem_cons.mp hg with h1 | h1
            · rw [h1]
              apply flush_good e t (pbd ++ [d])
              · exact chain_prefix_aux true _ hch (pbd ++ [d]) rem2
                  hassoc.symm
              · intro d2 hd2
                exact hnop1 d2 (List.mem_append.mpr (Or.inl hd2))
              · intro k hk
                have hkle : k + 1 ≤ pbd.length := by
                  simp only [List.length_append, List.length_cons,
                    List.length_nil] at hk
                  omega
                rw [List.take_append_of_le_length hkle]
                exact hpref k hkle
              · exact hstrip
            · exact hGood2 g h1
        · rw [processSens_cons_keep e t acc ((pbd.map SenData.val).flatten)
            (SenData.val d) (rem2.map SenData.val) hparen (Or.inl hcond)]
          rw [hbuf2]
          apply ih (pbd ++ [d]) acc hch1 hnop1
          intro k hk
          by_cases hkle : k + 1 ≤ pbd.length
          · rw [List.take_append_of_le_length hkle]
            exact hpref k hkle
          · have htk : (pbd ++ [d]).take (k+1) = pbd ++ [d] :=
              List.take_of_length_le (by
                simp only [List.length_append, List.length_cons,
                  List.length_nil]
                omega)
            rw [htk]
            left
            rw [← hbuf2]
            have : ¬ ((((pbd.map SenData.val).flatten)
                ++ SenData.val d).length ≥ 6) := fun hge => hcond (Or.inl hge)
            omega

/-- Splitting one paren-free response appends only self-replaying
fragments. -/
theorem split_one_good (acc : List OneSentenceChat) (r : OneSentenceChat)
    (hr : noOpenParen r.content = true) :
    ∃ G, split_one acc r = acc ++ G ∧ ∀ g ∈ G, FragGood g := by
  obtain ⟨ds, hds, hch⟩ := sentences_chain r.content
  have hnop : ∀ d ∈ ds, noOpenParen (SenData.val d) = true := by
    intro d hd
    apply noOpenParen_of_mem_flatten (ds.map SenData.val) (SenData.val d)
      (List.mem_map_of_mem SenData.val hd)
    rw [← hds, sentences_flatten]
    exact hr
  have h := processSens_all_good r.expression r.tone ds [] acc
    (by rw [List.nil_append]; exact chain_weaken true ds hch)
    (by intro d hd; rw [List.nil_append] at hd; exact hnop d hd)
    (fun k hk => by simp at hk)
  rw [show ((([] : List SenData).map SenData.val).flatten)
    = ([] : List Char) from rfl] at h
  rw [split_one, hds]
  exact h

theorem foldl_split_one_good :
    ∀ (M : List OneSentenceChat) (acc : List OneSentenceChat),
      (∀ r ∈ M, noOpenParen r.content = true) →
      ∃ G, M.foldl split_one acc = acc ++ G ∧ ∀ g ∈ G, FragGood g := by
  intro M
  induction M with
  | nil => intro acc h; exact ⟨[], by simp, by simp⟩
  | cons r rs ih =>
      intro acc h
      rw [List.foldl_cons]
      obtain ⟨G1, hG1, hGood1⟩ := split_one_good acc r (h r (by simp))
      obtain ⟨G2, hG2, hGood2⟩ := ih (split_one acc r)
        (fun r2 hr2 => h r2 (by simp [hr2]))
      refine ⟨G1 ++ G2, ?_, ?_⟩
      · rw [hG2, hG1, List.append_assoc]
      · intro g hg
        rcases List.mem_append.mp hg with h1 | h1
        · exact hGood1 g h1
        · exact hGood2 g h1

theorem foldl_replay (L : List OneSentenceChat) (h : ∀ g ∈ L, FragGood g) :
    ∀ acc, L.foldl split_one acc = acc ++ L := by
  induction L with
  | nil => intro acc; simp
  | cons g gs ih =>
      intro acc
      rw [List.foldl_cons]
      have hg : split_one acc g = acc ++ [g] := h g (by simp) acc
      rw [hg, ih (fun g2 hg2 => h g2 (by simp [hg2]))]
      simp

end Splitter

/-! ## C7 amended claim -/

/-- C7 (amended): the sentence splitter is idempotent on paren-free
fragment lists: for every list of fragments whose contents contain no
opening parenthesis (`（` or `(`), if that list is itself the output of
the splitter then splitting it again yields the same list. (Without the
paren-free restriction the claim is false — see the counterexample: a
leading complete parenthesized run of a non-first fragment is moved onto
the previous fragment by the second pass.) -/
theorem splitter_idempotent_paren_free (M : List Splitter.OneSentenceChat)
    (h : ∀ r ∈ M, Splitter.noOpenParen r.content = true) :
    Splitter.split_responses (Splitter.split_responses M)
      = Splitter.split_responses M := by
  obtain ⟨G, hG, hGood⟩ := Splitter.foldl_split_one_good M [] h
  have hM : Splitter.split_responses M = G := by
    rw [Splitter.split_responses, hG, List.nil_append]
  rw [hM, Splitter.split_responses, Splitter.foldl_replay G hGood [],
    List.nil_append]

/-- A concrete paren-free fragment used by the idempotence witness. -/
def parenFreeFragment : Splitter.OneSentenceChat :=
  { expression := "happy"
    tone := "normal"
    content := "abcdef，def. gh".toList
    sound_content := [] }

/-- Witness for the C7 amended claim at a concrete paren-free fragment
list. -/
theorem splitter_idempotent_paren_free_witness :
    (∀ r ∈ [parenFreeFragment], Splitter.noOpenParen r.content = true) ∧
    Splitter.split_responses (Splitter.split_responses [parenFreeFragment])
      = Splitter.split_responses [parenFreeFragment] :=
  ⟨by decide, splitter_idempotent_paren_free _ (by decide)⟩

end LuoTianyi



